import Mathlib

/-!
Verification development for the `relay` in-process publish/subscribe bus
(`src/relay/`): the wildcard pattern matcher and wildcard lookup of
`Bindings.get_by_event`, the three-index binding registry
(`Bindings.add/remove/remove_relay/clear` and the getters), the source
compatibility filter and fan-out loop of `Relay.emit`, and the dynamic part
of the `@Relay.emits` wrapper.

Python values are embedded as follows: strings are `String` (the matcher
works on `List Char`), bound methods are `PyCallable.bound` carrying the
identity of `__self__` and of `__func__`, plain functions and other callables
are the remaining `PyCallable` constructors, `dict`s (all are used as
insertion-ordered maps) are association lists, and raised exceptions are an
explicit `PyErr` value.  Pydantic models (`Binding`, `Listener`, `Emitter`,
`SourceInfo`) compare by class and field values, so the embedded structures
carry an `objId` that models object identity and is ignored by the embedded
`==` (`Binding.pyEq`).
-/

namespace RelayModel

/-- Python exceptions that the embedded code can raise. -/
inductive PyErr where
  | valueError
  | typeError
  | attributeError
  | recursionError
  | exception
deriving DecidableEq, Repr

/-! ## `_matches_pattern` (src/relay/bindings.py lines 167-186)

The matcher is a closure inside `Bindings.get_by_event`; it works on Python
strings, embedded here on `List Char`. -/

/-- Python `pattern.split('*')`: e.g. `""` ↦ `[""]`, `"a*b"` ↦ `["a","b"]`,
`"*"` ↦ `["",""]`.  The result is never the empty list. -/
def splitOnStar : List Char → List (List Char)
  | [] => [[]]
  | c :: rest =>
    if c = '*' then [] :: splitOnStar rest
    else
      match splitOnStar rest with
      | seg :: segs => (c :: seg) :: segs
      | [] => [[c]]

/-- Helper for `strFind`: scan indices `i, i+1, ...` (`fuel` many) for the
first position where `seg` occurs. -/
def strFindFrom (s seg : List Char) : Nat → Nat → Option Nat
  | _, 0 => none
  | i, fuel + 1 =>
    if seg <+: s.drop i then some i else strFindFrom s seg (i + 1) fuel

/-- Python `s.find(seg, start)`: the least index `i ≥ start` at which `seg`
occurs in `s` (`none` for Python's `-1`).  As in Python, a start beyond the
end of the string finds nothing, even for the empty needle. -/
def strFind (s seg : List Char) (start : Nat) : Option Nat :=
  if start ≤ s.length then strFindFrom s seg start (s.length + 1 - start) else none

/-- The scanning loop of `_matches_pattern`: repeatedly `find` each segment
from `start_idx`, moving `start_idx` past the found occurrence. -/
def findSegments (s : List Char) : List (List Char) → Nat → Bool
  | [], _ => true
  | seg :: rest, startIdx =>
    match strFind s seg startIdx with
    | none => false
    | some idx => findSegments s rest (idx + seg.length)

/-- `_matches_pattern(s, pattern)` from `Bindings.get_by_event`:
split the pattern on `'*'`, check the first segment with `startswith` and the
last with `endswith`, then find all segments left to right. -/
def matchesPattern (s pattern : List Char) : Bool :=
  if ((splitOnStar pattern).headD []) ≠ [] ∧ ¬ ((splitOnStar pattern).headD []) <+: s then
    false
  else if ((splitOnStar pattern).getLastD []) ≠ [] ∧
      ¬ ((splitOnStar pattern).getLastD []) <:+ s then
    false
  else findSegments s (splitOnStar pattern) 0

/-- String-level wrapper of the matcher. -/
def matchesPatternS (s pattern : String) : Bool :=
  matchesPattern s.toList pattern.toList

/-- Python `'*' in pattern`. -/
def containsStar (pattern : String) : Bool :=
  pattern.toList.contains '*'

/-! ### Specification predicate for the matcher (the claim side)

`OccursAt s seg j` says segment `seg` occurs in `s` at position `j` (the
occurrence lies inside `s`).  `PlacedTail s segs i` says the segments `segs`
can be placed in `s` in order without overlap, at positions `≥ i`, with a
non-empty final segment anchored at the end of `s`.  `SpecMatch` additionally
anchors a non-empty first segment at position 0. -/

def OccursAt (s seg : List Char) (j : Nat) : Prop :=
  seg <+: s.drop j ∧ j + seg.length ≤ s.length

def PlacedTail (s : List Char) : List (List Char) → Nat → Prop
  | [], _ => True
  | [seg], i => ∃ j, i ≤ j ∧ OccursAt s seg j ∧ (seg = [] ∨ j + seg.length = s.length)
  | seg :: seg2 :: rest, i =>
    ∃ j, i ≤ j ∧ OccursAt s seg j ∧ PlacedTail s (seg2 :: rest) (j + seg.length)

/-- Segments placed in order without overlap starting at positions `≥ i`,
with no anchoring requirements. -/
def PlacedFrom (s : List Char) : List (List Char) → Nat → Prop
  | [], _ => True
  | seg :: rest, i => ∃ j, i ≤ j ∧ OccursAt s seg j ∧ PlacedFrom s rest (j + seg.length)

/-- The candidate `s` matches pattern `p` in the sense of the specification:
the `'*'`-separated segments of `p` occur in `s` in order without overlap, a
non-empty first segment anchored at the start of `s` and a non-empty last
segment anchored at the end. -/
def SpecMatch (s pattern : List Char) : Prop :=
  match splitOnStar pattern with
  | [] => True
  | [seg] => ∃ j, (seg = [] ∨ j = 0) ∧ OccursAt s seg j ∧ (seg = [] ∨ j + seg.length = s.length)
  | seg :: seg2 :: rest =>
    ∃ j, (seg = [] ∨ j = 0) ∧ OccursAt s seg j ∧ PlacedTail s (seg2 :: rest) (j + seg.length)

end RelayModel
namespace RelayModel

/-! ## Data model (src/relay/bindings.py, src/relay/event.py)

Identities: a Relay instance or class (the possible owners of a bound
method) is an `OwnerRef` — a numeric identity plus the fact of whether its
class derives from `Relay` (which the registry code never consults).  A
Python callable is a `PyCallable`: a bound method (`inspect.ismethod`,
carrying `__self__` and `__func__`), a plain function
(`inspect.isfunction`), or any other callable (builtin, callable object).
Bound methods compare equal in Python exactly when their `__self__` and
`__func__` agree, which the structural equality of `PyCallable` mirrors. -/

structure OwnerRef where
  oid : Nat
  relayDerived : Bool
deriving DecidableEq, Repr

inductive PyCallable where
  | bound (owner : OwnerRef) (fn : Nat)
  | plainFn (fn : Nat)
  | otherCallable (oid : Nat)
deriving DecidableEq, Repr

/-- `SourceInfo` from src/relay/event.py lines 15-17: a pydantic model whose
declared fields are `relay` and `func` (not `emitter`). -/
structure SourceInfo where
  relay : Option OwnerRef := none
  func : Option PyCallable := none
deriving DecidableEq, Repr

/-- Reading the `emitter` attribute of a `SourceInfo`: the model declares no
such field (pydantic's default config also ignores an `emitter` keyword at
construction), so the attribute lookup raises `AttributeError`. -/
def SourceInfo.getattr_emitter (_ : SourceInfo) : Except PyErr (Option PyCallable) :=
  .error .attributeError

/-- The pydantic class of a binding: `Binding`, `Listener` (extra field
`source`), or `Emitter`.  Pydantic equality compares the class as well as the
field values, which the `role` component mirrors. -/
inductive Role where
  | base
  | listener (source : Option SourceInfo)
  | emitter
deriving DecidableEq, Repr

/-- A `Binding` (src/relay/bindings.py lines 14-42).  `objId` models Python
object identity and takes no part in pydantic equality.  `channel` and
`event_type` default to the constant `"DEFAULT"` (src/relay/consts.py is not
under src/; the spec fixes `DEFAULT_CHANNEL = DEFAULT_EVENT_TYPE =
"DEFAULT"`). -/
structure Binding where
  objId : Nat
  method : PyCallable
  event_type : String := "DEFAULT"
  channel : String := "DEFAULT"
  role : Role := .base
deriving DecidableEq, Repr

/-- Pydantic `__eq__` on bindings: same class and same field values;
object identity (`objId`) is ignored. -/
def Binding.pyEq (a b : Binding) : Bool :=
  decide (a.method = b.method) && decide (a.event_type = b.event_type) &&
    decide (a.channel = b.channel) && decide (a.role = b.role)

/-- Python `binding in list` (list membership by `__eq__`). -/
def listMemPy (b : Binding) (l : List Binding) : Bool :=
  l.any fun x => Binding.pyEq x b

/-- Python `list.remove(binding)`: drop the first element equal to `b`. -/
def listRemovePy (b : Binding) : List Binding → List Binding
  | [] => []
  | x :: rest => if Binding.pyEq x b then rest else x :: listRemovePy b rest

/-- The `filter_` argument of the getters (`Binding`, `Listener` or
`Emitter`; `Listener` and `Emitter` are subclasses of `Binding`). -/
inductive BFilter where
  | bindingF
  | listenerF
  | emitterF
deriving DecidableEq, Repr

/-- `type_check(b, filter_)` as invoked by the getters: an `isinstance`
check of the binding against the requested class. -/
def typeCheckFilter (b : Binding) : BFilter → Bool
  | .bindingF => true
  | .listenerF => match b.role with | .listener _ => true | _ => false
  | .emitterF => match b.role with | .emitter => true | _ => false

/-! ## Insertion-ordered dictionaries (Python `dict` / `defaultdict`) -/

/-- Lookup in an insertion-ordered association list. -/
def alookup {α β : Type} [DecidableEq α] : List (α × β) → α → Option β
  | [], _ => none
  | (k, v) :: rest, key => if k = key then some v else alookup rest key

/-- Python `d[k] = v`: overwrite in place (keeping the key's position) or
append a new entry at the end. -/
def aset {α β : Type} [DecidableEq α] : List (α × β) → α → β → List (α × β)
  | [], key, val => [(key, val)]
  | (k, v) :: rest, key, val =>
    if k = key then (k, val) :: rest else (k, v) :: aset rest key val

/-- Python `del d[k]` wrapped in `try/except KeyError`: remove the entry if
present, otherwise do nothing. -/
def adel {α β : Type} [DecidableEq α] : List (α × β) → α → List (α × β)
  | [], _ => []
  | (k, v) :: rest, key => if k = key then rest else (k, v) :: adel rest key

/-- `defaultdict` read `d[k]`: return the stored value, or install (at the
end) and return the default.  Returns the value and the updated dictionary. -/
def agetCreate {α β : Type} [DecidableEq α] (m : List (α × β)) (key : α) (default : β) :
    β × List (α × β) :=
  match alookup m key with
  | some v => (v, m)
  | none => (default, m ++ [(key, default)])

/-! ## The `Bindings` registry (src/relay/bindings.py lines 45-250) -/

/-- The three class-level indices of `Bindings`:
`_by_chnl_and_type : dd[str, dd[str, list[Binding]]]`,
`_by_relay : dd[Relay, list[Binding]]`,
`_by_method : dd[Callable, list[Binding]]`. -/
structure Registry where
  byChnlAndType : List (String × List (String × List Binding)) := []
  byRelay : List (OwnerRef × List Binding) := []
  byMethod : List (PyCallable × List Binding) := []
deriving DecidableEq, Repr

def emptyRegistry : Registry := {}

namespace Bindings

/-- `Bindings._get_binding_data` (lines 229-250): a bound method passes and
its `__self__` (instance, or the class itself for a classmethod) becomes the
owner; a plain function or any other callable raises
`ValueError("Binding method must come from Relay.")`.  Whether the owner's
class derives from `Relay` is not checked. -/
def _get_binding_data (binding : Binding) :
    Except PyErr (String × String × PyCallable × OwnerRef) :=
  match binding.method with
  | .bound owner _ => .ok (binding.channel, binding.event_type, binding.method, owner)
  | .plainFn _ => .error .valueError
  | .otherCallable _ => .error .valueError

/-- `Bindings.clear` (lines 51-56). -/
def clear (_ : Registry) : Registry := {}

/-- `Bindings.add` (lines 58-74): insert the binding into the three indices,
guarded per index by Python `in` (pydantic `__eq__`).  A raised
`ValueError` from `_get_binding_data` leaves the registry unchanged. -/
def add (st : Registry) (binding : Binding) : Registry × Option PyErr :=
  match _get_binding_data binding with
  | .error e => (st, some e)
  | .ok (channel, event_type, method, inst) =>
    let p1 := agetCreate st.byChnlAndType channel []
    let p2 := agetCreate p1.1 event_type []
    let etList := if listMemPy binding p2.1 then p2.1 else p2.1 ++ [binding]
    let outer := aset p1.2 channel (aset p2.2 event_type etList)
    let q1 := agetCreate st.byRelay inst []
    let bRelay := if listMemPy binding q1.1 then q1.1 else q1.1 ++ [binding]
    let byRelay := aset q1.2 inst bRelay
    let r1 := agetCreate st.byMethod method []
    let bFunc := if listMemPy binding r1.1 then r1.1 else r1.1 ++ [binding]
    let byMethod := aset r1.2 method bFunc
    ({ byChnlAndType := outer, byRelay := byRelay, byMethod := byMethod }, none)

/-- `Bindings.remove` (lines 76-117): `remove(None)` is a no-op; otherwise
remove the binding (by `__eq__`) from each index and prune entries that
became empty.  Note the `defaultdict` read `cls._by_chnl_and_type[channel]`
creates the channel entry before the pruning logic looks at it, while the
relay/method sections use `.get` and create nothing. -/
def remove (st : Registry) (binding? : Option Binding) : Registry × Option PyErr :=
  match binding? with
  | none => (st, none)
  | some binding =>
    match _get_binding_data binding with
    | .error e => (st, some e)
    | .ok (channel, event_type, func, inst) =>
      let p1 := agetCreate st.byChnlAndType channel []
      let cmap0 := p1.1
      let cmap1 :=
        if listMemPy binding ((alookup cmap0 event_type).getD []) then
          aset cmap0 event_type (listRemovePy binding ((alookup cmap0 event_type).getD []))
        else cmap0
      let cmap2 :=
        if ((alookup cmap1 event_type).getD []).isEmpty then adel cmap1 event_type else cmap1
      let outer1 := aset p1.2 channel cmap2
      let outer2 := if cmap2.isEmpty then adel outer1 channel else outer1
      let byRelay1 :=
        if listMemPy binding ((alookup st.byRelay inst).getD []) then
          aset st.byRelay inst (listRemovePy binding ((alookup st.byRelay inst).getD []))
        else st.byRelay
      let byRelay2 :=
        if ((alookup byRelay1 inst).getD []).isEmpty then adel byRelay1 inst else byRelay1
      let byMethod1 :=
        if listMemPy binding ((alookup st.byMethod func).getD []) then
          aset st.byMethod func (listRemovePy binding ((alookup st.byMethod func).getD []))
        else st.byMethod
      let byMethod2 :=
        if ((alookup byMethod1 func).getD []).isEmpty then adel byMethod1 func else byMethod1
      ({ byChnlAndType := outer2, byRelay := byRelay2, byMethod := byMethod2 }, none)

/-- The `for binding in bindings_to_remove: cls.remove(binding)` loop of
`remove_relay`.  `bindings_to_remove` aliases the live list object
`cls._by_relay[relay]`, which each `remove` mutates in place, so the Python
list iterator advances its index over the shrinking list; the model re-reads
the current list at each step.  The fuel bounds the number of iterations (the
list never grows), matching the iterator's termination. -/
def removeRelayLoop (r : OwnerRef) : Nat → Nat → Registry → Registry × Option PyErr
  | 0, _, st => (st, none)
  | fuel + 1, i, st =>
    let l := (alookup st.byRelay r).getD []
    if h : i < l.length then
      match remove st (some (l.get ⟨i, h⟩)) with
      | (st1, some e) => (st1, some e)
      | (st1, none) => removeRelayLoop r fuel (i + 1) st1
    else (st, none)

/-- `Bindings.remove_relay` (lines 119-127): no-op on `None` or an unknown
owner; otherwise iterate over the owner's (live) binding list, removing each
visited element. -/
def remove_relay (st : Registry) (relay : Option OwnerRef) : Registry × Option PyErr :=
  match relay with
  | none => (st, none)
  | some r =>
    if (alookup st.byRelay r).isSome then
      removeRelayLoop r (((alookup st.byRelay r).getD []).length + 1) 0 st
    else (st, none)

/-- `Bindings.get_by_relay` (lines 215-220): the `defaultdict` read
`cls._by_relay[relay]` installs an empty list for an unknown owner. -/
def get_by_relay (st : Registry) (relay : OwnerRef) (filter_ : BFilter) :
    List Binding × Registry :=
  let q := agetCreate st.byRelay relay []
  (q.1.filter fun b => typeCheckFilter b filter_, { st with byRelay := q.2 })

/-- `Bindings.get_by_method` (lines 222-227). -/
def get_by_method (st : Registry) (func : PyCallable) (filter_ : BFilter) :
    List Binding × Registry :=
  let q := agetCreate st.byMethod func []
  (q.1.filter fun b => typeCheckFilter b filter_, { st with byMethod := q.2 })

end Bindings

end RelayModel

namespace RelayModel

namespace Bindings

/-- The `for ch in cls._by_chnl_and_type.keys()` loop of
`_retrieve_by_event` when the channel argument carries a wildcard: recurse
into every stored channel key matching the pattern, concatenating results;
an exception inside the recursion propagates.  (The recursive calls create
no new channel entries, so iterating a snapshot of the keys agrees with
Python's live view.) -/
def retrieveChannelLoop
    (recur : Registry → String → String → List Binding × Registry × Option PyErr)
    (channelPat event_type : String) :
    List String → Registry → List Binding × Registry × Option PyErr
  | [], st => ([], st, none)
  | ch :: rest, st =>
    if matchesPatternS ch channelPat then
      match recur st ch event_type with
      | (bs, st1, some e) => (bs, st1, some e)
      | (bs, st1, none) =>
        match retrieveChannelLoop recur channelPat event_type rest st1 with
        | (bs2, st2, e2) => (bs ++ bs2, st2, e2)
    else retrieveChannelLoop recur channelPat event_type rest st

/-- The `for et in cls._by_chnl_and_type[channel].keys()` loop of
`_retrieve_by_event` when only the event-type argument carries a wildcard. -/
def retrieveEventTypeLoop
    (recur : Registry → String → String → List Binding × Registry × Option PyErr)
    (channel eventTypePat : String) :
    List String → Registry → List Binding × Registry × Option PyErr
  | [], st => ([], st, none)
  | et :: rest, st =>
    if matchesPatternS et eventTypePat then
      match recur st channel et with
      | (bs, st1, some e) => (bs, st1, some e)
      | (bs, st1, none) =>
        match retrieveEventTypeLoop recur channel eventTypePat rest st1 with
        | (bs2, st2, e2) => (bs ++ bs2, st2, e2)
    else retrieveEventTypeLoop recur channel eventTypePat rest st

/-- `_retrieve_by_event(channel, event_type)` (lines 188-206).  Exact
arguments hit the double `defaultdict` read
`cls._by_chnl_and_type[channel][event_type]`, installing empty entries for
unknown keys.  A wildcard channel recurses over all stored channel keys; a
wildcard event type recurses over the stored event types of the (created if
absent) channel entry.  The fuel models Python's recursion limit
(`RecursionError` when it runs out, which well-formed registry keys, being
`'*'`-free, never trigger at the top-level fuel). -/
def retrieveByEvent : Nat → Registry → String → String →
    List Binding × Registry × Option PyErr
  | 0, st, _, _ => ([], st, some .recursionError)
  | fuel + 1, st, channel, event_type =>
    if ¬ containsStar channel = true ∧ ¬ containsStar event_type = true then
      let p1 := agetCreate st.byChnlAndType channel []
      let p2 := agetCreate p1.1 event_type []
      (p2.1, { st with byChnlAndType := aset p1.2 channel p2.2 }, none)
    else if containsStar channel = true then
      retrieveChannelLoop (retrieveByEvent fuel) channel event_type
        (st.byChnlAndType.map fun kv => kv.1) st
    else
      let p1 := agetCreate st.byChnlAndType channel []
      retrieveEventTypeLoop (retrieveByEvent fuel) channel event_type
        (p1.1.map fun kv => kv.1) { st with byChnlAndType := p1.2 }

/-- Python's default recursion limit, bounding `_retrieve_by_event`'s
self-recursion depth. -/
def recursionLimit : Nat := 1000

/-- `Bindings.get_by_event` (lines 129-211): retrieve by (possibly
wildcarded) channel and event type, then filter by binding kind. -/
def get_by_event (st : Registry) (channel event_type : String) (filter_ : BFilter) :
    List Binding × Registry × Option PyErr :=
  match retrieveByEvent recursionLimit st channel event_type with
  | (bs, st1, none) => (bs.filter fun b => typeCheckFilter b filter_, st1, none)
  | (_, st1, some e) => ([], st1, some e)

end Bindings

/-! ## `Relay.emit` (src/relay/relay.py lines 24-109) and the `@Relay.emits`
wrapper (lines 111-220) -/

/-- An `Event` (src/relay/event.py lines 22-62).  The payload is embedded as
a number; `time` is irrelevant to the claims and omitted. -/
structure Event where
  data : Nat
  channel : String := "DEFAULT"
  event_type : String := "DEFAULT"
  source : Option SourceInfo := none
deriving DecidableEq, Repr

/-- `source_compatible(s_event, s_listener)` from `Relay.emit` (lines
76-91).  The four locals are computed up front; the two that read
`.emitter` on a present `SourceInfo` raise `AttributeError` because the
model declares `relay` and `func` only. -/
def source_compatible (sEvent sListener : Option SourceInfo) : Except PyErr Bool := do
  let listnRelay : Option OwnerRef := match sListener with
    | none => none
    | some s => s.relay
  let listnEmitter : Option PyCallable ← match sListener with
    | none => pure none
    | some s => s.getattr_emitter
  let eventRelay : Option OwnerRef := match sEvent with
    | none => none
    | some s => s.relay
  let eventEmitter : Option PyCallable ← match sEvent with
    | none => pure none
    | some s => s.getattr_emitter
  if listnRelay ≠ none ∧ eventRelay ≠ listnRelay then
    return false
  if listnEmitter ≠ none ∧ eventEmitter ≠ listnEmitter then
    return false
  return true

/-- Reading `listener.source`: declared on `Listener` only; on a plain
`Binding` or an `Emitter` the attribute lookup raises `AttributeError`. -/
def Binding.getattr_source (b : Binding) : Except PyErr (Option SourceInfo) :=
  match b.role with
  | .listener s => .ok s
  | _ => .error .attributeError

/-- The behavior of a dispatched bound method: the environment `call` gives
each method's result on an event (`.ok` for a normal return, `.error` for a
raised exception).  `safe_method` (lines 93-99) awaits the method and
catches and logs any exception. -/
inductive TaskResult where
  | completed
  | loggedException
deriving DecidableEq, Repr

def safe_method (call : PyCallable → Event → Except PyErr Unit) (event : Event)
    (method : PyCallable) : TaskResult :=
  match call method event with
  | .ok _ => .completed
  | .error _ => .loggedException

/-- The `for listener in listeners` loop of `Relay.emit` (lines 105-109):
check source compatibility (an exception there propagates, aborting the
loop; tasks already created keep running), skip incompatible listeners, and
schedule `safe_method` for the rest.  Returns the scheduled tasks with their
outcomes and the exception `emit` raises, if any. -/
def emitLoop (call : PyCallable → Event → Except PyErr Unit) (event : Event) :
    List Binding → List (PyCallable × TaskResult) × Option PyErr
  | [] => ([], none)
  | listener :: rest =>
    match Binding.getattr_source listener with
    | .error e => ([], some e)
    | .ok lsource =>
      match source_compatible event.source lsource with
      | .error e => ([], some e)
      | .ok compatible =>
        if compatible then
          let task := (listener.method, safe_method call event listener.method)
          match emitLoop call event rest with
          | (tasks, e) => (task :: tasks, e)
        else emitLoop call event rest

/-- `Relay.emit(event)` (lines 24-109): query the registry for `Listener`
bindings under the event's channel and event type, then dispatch to each
compatible listener in an isolated task.  Returns the updated registry (the
query can create empty entries), the scheduled tasks with outcomes, and the
exception `emit` raises, if any. -/
def Relay.emit (call : PyCallable → Event → Except PyErr Unit) (st : Registry)
    (event : Event) : Registry × List (PyCallable × TaskResult) × Option PyErr :=
  match Bindings.get_by_event st event.channel event.event_type .listenerF with
  | (_, st1, some e) => (st1, [], some e)
  | (listeners, st1, none) =>
    match emitLoop call event listeners with
    | (tasks, e) => (st1, tasks, e)

/-- The result of the wrapped user coroutine inside the `@Relay.emits`
wrapper: either a `Relay.NoEmit(data=d)` wrapper object or a plain value. -/
inductive FuncResult where
  | noEmit (d : Nat)
  | value (r : Nat)
deriving DecidableEq, Repr

/-- The `for emitter in emitters: await cls.emit(...)` loop of the `emits`
wrapper (lines 213-217).  Each iteration constructs
`Event(data=result, channel=..., event_type=..., source=SourceInfo(relay=self,
emitter=method))`; since `SourceInfo` declares no `emitter` field, pydantic
drops that keyword and the event's source is `{relay: self, func: None}`.
An exception raised by `emit` propagates, aborting the loop. -/
def emitsEmitterLoop (call : PyCallable → Event → Except PyErr Unit) (r : Nat)
    (selfRef : OwnerRef) :
    List Binding → Registry → Registry × List (Event × List (PyCallable × TaskResult)) × Option PyErr
  | [], st => (st, [], none)
  | emitter :: rest, st =>
    let event : Event :=
      { data := r, channel := emitter.channel, event_type := emitter.event_type,
        source := some { relay := some selfRef, func := none } }
    match Relay.emit call st event with
    | (st1, tasks, some e) => (st1, [(event, tasks)], some e)
    | (st1, tasks, none) =>
      match emitsEmitterLoop call r selfRef rest st1 with
      | (st2, evs, e2) => (st2, (event, tasks) :: evs, e2)

/-- The dynamic part of the `@Relay.emits` wrapper (lines 182-220), entered
after the wrapped coroutine returned `result`: check `self` is a `Relay`,
unwrap `NoEmit`, validate the (unwrapped) data against the declared return
annotation `ann`, short-circuit on `NoEmit` returning the bare data, and
otherwise emit one event per `Emitter` binding registered under the bound
method `getattr(self, func.__name__)` and return the result.  Output: final
registry, events passed to `Relay.emit` with their dispatch tasks, the
exception the wrapper raises (if any), and its return value (if it returns). -/
def Relay.emitsWrapper (call : PyCallable → Event → Except PyErr Unit)
    (ann : Nat → Bool) (selfIsRelay : Bool) (selfRef : OwnerRef) (fnId : Nat)
    (st : Registry) (result : FuncResult) :
    Registry × List (Event × List (PyCallable × TaskResult)) × Option PyErr × Option Nat :=
  if ¬ selfIsRelay then (st, [], some .typeError, none)
  else
    let noEmit : Bool := match result with | .noEmit _ => true | .value _ => false
    let data : Nat := match result with | .noEmit d => d | .value r => r
    if ¬ ann data then (st, [], some .typeError, none)
    else if noEmit then (st, [], none, some data)
    else
      let method : PyCallable := .bound selfRef fnId
      let q := Bindings.get_by_method st method .emitterF
      match emitsEmitterLoop call data selfRef q.1 q.2 with
      | (st1, evs, some e) => (st1, evs, some e, none)
      | (st1, evs, none) => (st1, evs, none, some data)

/-! ## Derived shorthands used in statements about the registry -/

/-- The guarded insertion `add` performs on each index's leaf list. -/
def pyInsert (b : Binding) (l : List Binding) : List Binding :=
  if listMemPy b l then l else l ++ [b]

/-- The leaf list stored under a channel and event type (empty when either
key is absent). -/
def chnlLeaf (st : Registry) (c et : String) : List Binding :=
  ((alookup st.byChnlAndType c).bind fun cmap => alookup cmap et).getD []

/-- The leaf list stored under an owner. -/
def relayLeaf (st : Registry) (o : OwnerRef) : List Binding :=
  (alookup st.byRelay o).getD []

/-- The leaf list stored under a method. -/
def methodLeaf (st : Registry) (m : PyCallable) : List Binding :=
  (alookup st.byMethod m).getD []

/-- Normal form of `remove`'s effect on a flat index (`_by_relay` /
`_by_method`): drop the binding from the key's list if present (by `__eq__`),
then prune the key if its list ended up absent or empty. -/
def pyRemoveIdx {κ : Type} [DecidableEq κ] (idx : List (κ × List Binding)) (k : κ)
    (b : Binding) : List (κ × List Binding) :=
  let l0 := (alookup idx k).getD []
  let idx1 := if listMemPy b l0 then aset idx k (listRemovePy b l0) else idx
  if ((alookup idx1 k).getD []).isEmpty then adel idx1 k else idx1

/-- Normal form of `remove`'s effect on `_by_chnl_and_type`: the
`defaultdict` read of the channel entry, removal from the event-type list,
pruning of the event-type entry and then of the channel entry. -/
def pyRemoveChnl (outer : List (String × List (String × List Binding))) (c et : String)
    (b : Binding) : List (String × List (String × List Binding)) :=
  let cmap0 := (alookup outer c).getD []
  let l0 := (alookup cmap0 et).getD []
  let cmap1 := if listMemPy b l0 then aset cmap0 et (listRemovePy b l0) else cmap0
  let cmap2 := if ((alookup cmap1 et).getD []).isEmpty then adel cmap1 et else cmap1
  let outer1 := aset outer c cmap2
  if cmap2.isEmpty then adel outer1 c else outer1

/-! ## Concrete scenarios used in the claim analyses -/

def exR : OwnerRef := ⟨0, true⟩

def exB1 : Binding := { objId := 1, method := .bound exR 10 }

def exB2 : Binding := { objId := 2, method := .bound exR 11 }

/-- Registry holding the two bindings `exB1`, `exB2`, both owned by `exR`. -/
def exSt2 : Registry := (Bindings.add (Bindings.add emptyRegistry exB1).1 exB2).1

/-- A distinct binding object with exactly the fields of `exB1`. -/
def exB1dup : Binding := { objId := 42, method := .bound exR 10 }

/-- A binding whose method is a plain (unbound) function. -/
def exBfn : Binding := { objId := 5, method := .plainFn 7 }

/-- An owner whose class does not derive from `Relay`. -/
def exNonRelayOwner : OwnerRef := ⟨7, false⟩

def exBNonRelay : Binding := { objId := 6, method := .bound exNonRelayOwner 3 }

/- Dispatch scenario: three listeners on `("c","t")`; `exM1` raises when
invoked, `exL2` carries a source restriction. -/

def exM1 : PyCallable := .bound exR 21

def exM2 : PyCallable := .bound exR 22

def exM3 : PyCallable := .bound exR 23

def exL1 : Binding :=
  { objId := 11, method := exM1, event_type := "t", channel := "c", role := .listener none }

def exL2 : Binding :=
  { objId := 12, method := exM2, event_type := "t", channel := "c",
    role := .listener (some { relay := some exR }) }

def exL3 : Binding :=
  { objId := 13, method := exM3, event_type := "t", channel := "c", role := .listener none }

def exStEmit : Registry :=
  (Bindings.add (Bindings.add (Bindings.add emptyRegistry exL1).1 exL2).1 exL3).1

def exStEmitNoSource : Registry := (Bindings.add (Bindings.add emptyRegistry exL1).1 exL3).1

/-- Listener behavior: `exM1` raises, every other method returns normally. -/
def exCall : PyCallable → Event → Except PyErr Unit := fun m _ =>
  if m = exM1 then .error .exception else .ok ()

def exEv : Event := { data := 0, channel := "c", event_type := "t", source := none }

/- `@Relay.emits` scenario: the bound method `exME` has two `Emitter`
bindings; a sourceless listener is registered under the first binding's
channel and event type. -/

def exME : PyCallable := .bound exR 5

def exE1 : Binding :=
  { objId := 21, method := exME, event_type := "t1", channel := "c1", role := .emitter }

def exE2 : Binding :=
  { objId := 22, method := exME, event_type := "t2", channel := "c2", role := .emitter }

def exML : PyCallable := .bound exR 7

def exLX : Binding :=
  { objId := 23, method := exML, event_type := "t1", channel := "c1", role := .listener none }

def exStWrap : Registry :=
  (Bindings.add (Bindings.add (Bindings.add emptyRegistry exE1).1 exE2).1 exLX).1

def exStWrapNoListener : Registry := (Bindings.add (Bindings.add emptyRegistry exE1).1 exE2).1

/-- Method behavior where every invocation returns normally. -/
def exCallOk : PyCallable → Event → Except PyErr Unit := fun _ _ => .ok ()

/-! ## Registry invariants (the claim side for index coherence)

`keysNodup` reflects that Python `dict`s have unique keys; `Placed` says
every stored binding sits under its own channel/event-type/owner/method keys
and carries a bound method; `Coherent` says a stored binding is present
under its channel/event-type key exactly when it is present under its owner
key and under its method key; `PyNodup` says no leaf list holds two
`__eq__`-equal bindings (which `add`'s guards enforce); `NoEmpty` says no
index entry maps to an empty inner map or list. -/

def keysNodup (st : Registry) : Prop :=
  (st.byChnlAndType.map Prod.fst).Nodup ∧
  (∀ c cmap, alookup st.byChnlAndType c = some cmap → (cmap.map Prod.fst).Nodup) ∧
  (st.byRelay.map Prod.fst).Nodup ∧
  (st.byMethod.map Prod.fst).Nodup

def Placed (st : Registry) : Prop :=
  (∀ c cmap, alookup st.byChnlAndType c = some cmap →
    ∀ et l, alookup cmap et = some l →
      ∀ b ∈ l, b.channel = c ∧ b.event_type = et ∧ ∃ o fn, b.method = .bound o fn) ∧
  (∀ o l, alookup st.byRelay o = some l → ∀ b ∈ l, ∃ fn, b.method = .bound o fn) ∧
  (∀ m l, alookup st.byMethod m = some l →
    ∀ b ∈ l, b.method = m ∧ ∃ o fn, m = .bound o fn)

def Coherent (st : Registry) : Prop :=
  ∀ (b : Binding) (o : OwnerRef) (fn : Nat), b.method = .bound o fn →
    ((b ∈ chnlLeaf st b.channel b.event_type ↔ b ∈ relayLeaf st o) ∧
     (b ∈ relayLeaf st o ↔ b ∈ methodLeaf st b.method))

def PyNodup (st : Registry) : Prop :=
  (∀ c cmap, alookup st.byChnlAndType c = some cmap →
    ∀ et l, alookup cmap et = some l → l.Pairwise fun a b => Binding.pyEq a b = false) ∧
  (∀ o l, alookup st.byRelay o = some l → l.Pairwise fun a b => Binding.pyEq a b = false) ∧
  (∀ m l, alookup st.byMethod m = some l → l.Pairwise fun a b => Binding.pyEq a b = false)

/-- No dangling empty collections: every channel entry holds a non-empty
event-type map, every event-type entry a non-empty binding list, and every
owner and method entry a non-empty binding list. -/
def NoEmpty (st : Registry) : Prop :=
  (∀ c cmap, alookup st.byChnlAndType c = some cmap →
    cmap ≠ [] ∧ ∀ et l, alookup cmap et = some l → l ≠ []) ∧
  (∀ o l, alookup st.byRelay o = some l → l ≠ []) ∧
  (∀ m l, alookup st.byMethod m = some l → l ≠ [])

def Inv (st : Registry) : Prop :=
  keysNodup st ∧ Placed st ∧ Coherent st ∧ PyNodup st

/-- Membership of a binding anywhere in the channel/event-type index. -/
def InChnlIdx (st : Registry) (b : Binding) : Prop :=
  ∃ c cmap, alookup st.byChnlAndType c = some cmap ∧
    ∃ et l, alookup cmap et = some l ∧ b ∈ l

/-- Membership of a binding anywhere in the owner index. -/
def InRelayIdx (st : Registry) (b : Binding) : Prop :=
  ∃ o l, alookup st.byRelay o = some l ∧ b ∈ l

/-- Membership of a binding anywhere in the method index. -/
def InMethodIdx (st : Registry) (b : Binding) : Prop :=
  ∃ m l, alookup st.byMethod m = some l ∧ b ∈ l

/-! ## Operation sequences against the registry (the claim's API surface) -/

inductive Op where
  | add (b : Binding)
  | remove (b? : Option Binding)
  | remove_relay (r? : Option OwnerRef)
  | clear
  | get_by_event (channel event_type : String) (filter_ : BFilter)
  | get_by_relay (r : OwnerRef) (filter_ : BFilter)
  | get_by_method (m : PyCallable) (filter_ : BFilter)
deriving DecidableEq, Repr

/-- Run one operation, keeping the registry state it leaves behind (query
results and raised exceptions are discarded; every operation leaves a
well-defined state, exceptions being raised before or between index
mutations). -/
def runOp (st : Registry) : Op → Registry
  | .add b => (Bindings.add st b).1
  | .remove b? => (Bindings.remove st b?).1
  | .remove_relay r? => (Bindings.remove_relay st r?).1
  | .clear => Bindings.clear st
  | .get_by_event c et f => (Bindings.get_by_event st c et f).2.1
  | .get_by_relay r f => (Bindings.get_by_relay st r f).2
  | .get_by_method m f => (Bindings.get_by_method st m f).2

/-- Run a sequence of operations from the initial (empty) registry. -/
def runOps (ops : List Op) : Registry :=
  ops.foldl runOp emptyRegistry

/-- The mutating operations (the queries are the other three). -/
def opIsMutation : Op → Bool
  | .add _ => true
  | .remove _ => true
  | .remove_relay _ => true
  | .clear => true
  | .get_by_event _ _ _ => false
  | .get_by_relay _ _ => false
  | .get_by_method _ _ => false

end RelayModel

namespace RelayModel

/-! ### Basic facts about `strFind` -/

theorem strFindFrom_eq_some {s seg : List Char} :
    ∀ (fuel i k : Nat), strFindFrom s seg i fuel = some k →
      i ≤ k ∧ seg <+: s.drop k ∧ ∀ m, i ≤ m → m < k → ¬ seg <+: s.drop m := by
  intro fuel
  induction fuel with
  | zero => intro i k h; simp [strFindFrom] at h
  | succ fuel ih =>
    intro i k h
    by_cases hp : seg <+: s.drop i
    · simp only [strFindFrom, if_pos hp, Option.some.injEq] at h
      subst h
      exact ⟨Nat.le_refl _, hp, fun m h1 h2 => absurd h1 (Nat.not_le_of_lt h2).elim⟩
    · simp only [strFindFrom, if_neg hp] at h
      obtain ⟨h1, h2, h3⟩ := ih (i + 1) k h
      refine ⟨Nat.le_trans (Nat.le_succ i) h1, h2, fun m hm1 hm2 => ?_⟩
      rcases Nat.eq_or_lt_of_le hm1 with heq | hlt
      · subst heq; exact hp
      · exact h3 m hlt hm2

theorem strFindFrom_eq_none {s seg : List Char} :
    ∀ (fuel i : Nat), strFindFrom s seg i fuel = none →
      ∀ m, i ≤ m → m < i + fuel → ¬ seg <+: s.drop m := by
  intro fuel
  induction fuel with
  | zero => intro i _ m h1 h2; omega
  | succ fuel ih =>
    intro i h m h1 h2
    by_cases hp : seg <+: s.drop i
    · simp [strFindFrom, if_pos hp] at h
    · simp only [strFindFrom, if_neg hp] at h
      rcases Nat.eq_or_lt_of_le h1 with heq | hlt
      · subst heq; exact hp
      · exact ih (i + 1) h m hlt (by omega)

theorem strFind_eq_some {s seg : List Char} {start k : Nat}
    (h : strFind s seg start = some k) :
    start ≤ k ∧ OccursAt s seg k ∧ ∀ m, start ≤ m → OccursAt s seg m → k ≤ m := by
  by_cases hs : start ≤ s.length
  · simp only [strFind, if_pos hs] at h
    obtain ⟨h1, h2, h3⟩ := strFindFrom_eq_some _ _ _ h
    have hkle : k ≤ s.length := by
      by_cases hk : k ≤ s.length
      · exact hk
      · exfalso
        have hd : s.drop k = [] := List.drop_eq_nil_of_le (by omega)
        rw [hd] at h2
        have hnil : seg = [] := List.prefix_nil.mp h2
        subst hnil
        -- the search would have stopped at `start` already
        have := h3 start (Nat.le_refl _) (by omega)
        simp at this
    have hlen : seg.length ≤ s.length - k := by
      have := h2.length_le
      simpa [List.length_drop] using this
    refine ⟨h1, ⟨h2, by omega⟩, ?_⟩
    intro m hm hocc
    by_contra hmk
    exact h3 m hm (by omega) hocc.1
  · simp [strFind, if_neg hs] at h

theorem strFind_eq_none {s seg : List Char} {start : Nat}
    (h : strFind s seg start = none) :
    ∀ m, start ≤ m → ¬ OccursAt s seg m := by
  intro m hm hocc
  have hmlen : m ≤ s.length := by
    have := hocc.2; omega
  by_cases hs : start ≤ s.length
  · simp only [strFind, if_pos hs] at h
    exact strFindFrom_eq_none _ _ h m hm (by omega) hocc.1
  · omega

theorem strFind_complete {s seg : List Char} {start j : Nat}
    (hj : start ≤ j) (hocc : OccursAt s seg j) :
    ∃ k, strFind s seg start = some k ∧ k ≤ j := by
  cases h : strFind s seg start with
  | none => exact absurd hocc (strFind_eq_none h j hj)
  | some k => exact ⟨k, rfl, (strFind_eq_some h).2.2 j hj hocc⟩

/-! ### Placement lemmas -/

theorem PlacedTail.toPlacedFrom {s : List Char} :
    ∀ (segs : List (List Char)) (i : Nat), PlacedTail s segs i → PlacedFrom s segs i := by
  intro segs
  induction segs with
  | nil => intro i _; trivial
  | cons seg rest ih =>
    intro i h
    cases rest with
    | nil =>
      obtain ⟨j, hij, hocc, _⟩ := h
      exact ⟨j, hij, hocc, trivial⟩
    | cons seg2 rest2 =>
      obtain ⟨j, hij, hocc, htail⟩ := h
      exact ⟨j, hij, hocc, ih _ htail⟩

theorem PlacedFrom.mono {s : List Char} :
    ∀ (segs : List (List Char)) {i i' : Nat}, i' ≤ i → PlacedFrom s segs i →
      PlacedFrom s segs i' := by
  intro segs
  induction segs with
  | nil => intro i i' _ _; trivial
  | cons seg rest _ =>
    intro i i' hle h
    obtain ⟨j, hij, hocc, htail⟩ := h
    exact ⟨j, Nat.le_trans hle hij, hocc, htail⟩

/-- Greedy completeness: if the segments can be placed at positions `≥ i`,
the left-to-right `find` loop succeeds from `start_idx = i`. -/
theorem PlacedFrom.findSegments {s : List Char} :
    ∀ (segs : List (List Char)) (i : Nat), PlacedFrom s segs i →
      RelayModel.findSegments s segs i = true := by
  intro segs
  induction segs with
  | nil => intro i _; rfl
  | cons seg rest ih =>
    intro i h
    obtain ⟨j, hij, hocc, htail⟩ := h
    obtain ⟨k, hk, hkj⟩ := strFind_complete hij hocc
    have htail' : PlacedFrom s rest (k + seg.length) :=
      PlacedFrom.mono rest (by omega) htail
    simp only [RelayModel.findSegments, hk]
    exact ih _ htail'

theorem getLastD_singleton (x : List Char) (d : List Char) : List.getLastD [x] d = x := rfl

theorem getLastD_cons_cons (x y : List Char) (l : List (List Char)) (d : List Char) :
    List.getLastD (x :: y :: l) d = List.getLastD (y :: l) d := rfl

theorem occursAt_of_suffix {s seg : List Char} (h : seg <:+ s) :
    OccursAt s seg (s.length - seg.length) := by
  obtain ⟨t, ht⟩ := h
  have hlen : s.length = t.length + seg.length := by
    rw [← ht]; simp
  have hdrop : s.drop (s.length - seg.length) = seg := by
    have : s.length - seg.length = t.length := by omega
    rw [this, ← ht, List.drop_left]
  constructor
  · rw [hdrop]
  · omega

theorem suffix_of_occursAt_end {s seg : List Char} {j : Nat}
    (hocc : OccursAt s seg j) (hend : j + seg.length = s.length) :
    seg <:+ s := by
  obtain ⟨hpre, hle⟩ := hocc
  obtain ⟨t, ht⟩ := hpre
  have hlen : (s.drop j).length = seg.length := by
    simp [List.length_drop]; omega
  have ht' : s.drop j = seg := by
    have ht0 : t = [] := by
      have h2 := congrArg List.length ht
      simp [hlen] at h2
      exact h2
    rw [← ht, ht0, List.append_nil]
  exact ⟨s.take j, by rw [← ht']; exact List.take_append_drop j s⟩

/-- Greedy soundness with the final `endswith` anchor: if the `find` loop
succeeds and the last segment is empty or a suffix of `s`, then the segments
admit an end-anchored placement. -/
theorem findSegments_placedTail {s : List Char} :
    ∀ (segs : List (List Char)) (i : Nat), RelayModel.findSegments s segs i = true →
      (segs.getLastD [] = [] ∨ segs.getLastD [] <:+ s) → PlacedTail s segs i := by
  intro segs
  induction segs with
  | nil => intro i _ _; trivial
  | cons seg rest ih =>
    intro i hfind hanchor
    cases rest with
    | nil =>
      simp only [RelayModel.findSegments] at hfind
      cases hk : strFind s seg i with
      | none => rw [hk] at hfind; simp at hfind
      | some k =>
        obtain ⟨hik, hocc, _⟩ := strFind_eq_some hk
        rcases hanchor with hnil | hsuf
        · rw [getLastD_singleton] at hnil
          exact ⟨k, hik, hocc, Or.inl hnil⟩
        · rw [getLastD_singleton] at hsuf
          by_cases hseg : seg = []
          · exact ⟨k, hik, hocc, Or.inl hseg⟩
          · refine ⟨s.length - seg.length, ?_, occursAt_of_suffix hsuf, Or.inr (by
              have := hsuf.length_le; omega)⟩
            have := hocc.2
            omega
    | cons seg2 rest2 =>
      simp only [RelayModel.findSegments] at hfind
      cases hk : strFind s seg i with
      | none => rw [hk] at hfind; simp at hfind
      | some k =>
        rw [hk] at hfind
        obtain ⟨hik, hocc, _⟩ := strFind_eq_some hk
        have hanchor2 : (seg2 :: rest2).getLastD [] = [] ∨ (seg2 :: rest2).getLastD [] <:+ s := by
          rw [getLastD_cons_cons] at hanchor
          exact hanchor
        exact ⟨k, hik, hocc, ih _ hfind hanchor2⟩

/-- An end-anchored placement forces the non-empty last segment to be a
suffix of `s`. -/
theorem PlacedTail.suffix {s : List Char} :
    ∀ (segs : List (List Char)) (i : Nat), PlacedTail s segs i →
      segs.getLastD [] ≠ [] → segs.getLastD [] <:+ s := by
  intro segs
  induction segs with
  | nil => intro i _ h; simp [List.getLastD] at h
  | cons seg rest ih =>
    intro i hp hne
    cases rest with
    | nil =>
      obtain ⟨j, _, hocc, hend⟩ := hp
      rw [getLastD_singleton] at hne ⊢
      rcases hend with hnil | hend
      · exact absurd hnil hne
      · exact suffix_of_occursAt_end hocc hend
    | cons seg2 rest2 =>
      obtain ⟨j, _, _, htail⟩ := hp
      rw [getLastD_cons_cons] at hne ⊢
      exact ih _ htail hne

/-! ### Facts about `splitOnStar` -/

theorem splitOnStar_ne_nil : ∀ (l : List Char), splitOnStar l ≠ [] := by
  intro l
  cases l with
  | nil => simp [splitOnStar]
  | cons c rest =>
    by_cases hc : c = '*'
    · simp [splitOnStar, hc]
    · simp only [splitOnStar, if_neg hc]
      cases splitOnStar rest <;> simp

theorem splitOnStar_length_of_star :
    ∀ (l : List Char), '*' ∈ l → 2 ≤ (splitOnStar l).length := by
  intro l
  induction l with
  | nil => intro h; simp at h
  | cons c rest ih =>
    intro h
    by_cases hc : c = '*'
    · simp only [splitOnStar, if_pos hc, List.length_cons]
      have := splitOnStar_ne_nil rest
      have : 1 ≤ (splitOnStar rest).length := by
        cases hr : splitOnStar rest with
        | nil => exact absurd hr this
        | cons a as => simp
      omega
    · have hmem : '*' ∈ rest := by
        rcases List.mem_cons.mp h with h1 | h1
        · exact absurd h1.symm hc
        · exact h1
      have := ih hmem
      simp only [splitOnStar, if_neg hc]
      cases hr : splitOnStar rest with
      | nil => exact absurd hr (splitOnStar_ne_nil rest)
      | cons a as => rw [hr] at this; simpa using this

theorem specMatch_cons_cons (s : List Char) {p seg seg2 : List Char}
    {rest : List (List Char)} (hsegs : splitOnStar p = seg :: seg2 :: rest) :
    SpecMatch s p ↔
      ∃ j, (seg = [] ∨ j = 0) ∧ OccursAt s seg j ∧ PlacedTail s (seg2 :: rest) (j + seg.length) := by
  unfold SpecMatch
  rw [hsegs]

theorem strFind_nil_zero (s : List Char) : strFind s [] 0 = some 0 := by
  simp [strFind, strFindFrom]

/-- Main matcher equivalence: on a pattern that contains at least one `'*'`,
`_matches_pattern` decides exactly the specified anchored in-order placement
of the pattern's segments. -/
theorem matchesPattern_iff_specMatch {s p : List Char} (hstar : '*' ∈ p) :
    matchesPattern s p = true ↔ SpecMatch s p := by
  have hlen := splitOnStar_length_of_star p hstar
  obtain ⟨seg, seg2, rest, hsegs⟩ :
      ∃ seg seg2 rest, splitOnStar p = seg :: seg2 :: rest := by
    cases h1 : splitOnStar p with
    | nil => rw [h1] at hlen; simp at hlen
    | cons a tl =>
      cases tl with
      | nil => rw [h1] at hlen; simp at hlen
      | cons b tl2 => exact ⟨a, b, tl2, rfl⟩
  have hhead : (splitOnStar p).headD [] = seg := by rw [hsegs]; rfl
  have hlast : (splitOnStar p).getLastD [] = (seg2 :: rest).getLastD [] := by
    rw [hsegs, getLastD_cons_cons]
  constructor
  · intro hm
    unfold matchesPattern at hm
    rw [hhead, hlast] at hm
    by_cases h1 : seg ≠ [] ∧ ¬ seg <+: s
    · rw [if_pos h1] at hm; exact absurd hm (by simp)
    · rw [if_neg h1] at hm
      by_cases h2 : (seg2 :: rest).getLastD [] ≠ [] ∧ ¬ (seg2 :: rest).getLastD [] <:+ s
      · rw [if_pos h2] at hm; exact absurd hm (by simp)
      · rw [if_neg h2, hsegs] at hm
        -- peel the first segment off the find loop
        simp only [RelayModel.findSegments] at hm
        cases hk : strFind s seg 0 with
        | none => rw [hk] at hm; simp at hm
        | some k =>
          rw [hk] at hm
          obtain ⟨_, hocck, hmin⟩ := strFind_eq_some hk
          have hk0 : k = 0 := by
            by_cases hseg : seg = []
            · subst hseg
              rw [strFind_nil_zero] at hk
              exact (Option.some_inj.mp hk).symm

            · have hpre : seg <+: s := by
                rcases Classical.not_and_iff_or_not_not.mp h1 with h | h
                · exact absurd hseg (by simpa using h)
                · simpa using Classical.not_not.mp h
              have hocc0 : OccursAt s seg 0 := by
                refine ⟨by simpa using hpre, ?_⟩
                have := hpre.length_le
                omega
              have := hmin 0 (Nat.le_refl 0) hocc0
              omega
          subst hk0
          have hanchor : (seg2 :: rest).getLastD [] = [] ∨ (seg2 :: rest).getLastD [] <:+ s := by
            rcases Classical.not_and_iff_or_not_not.mp h2 with h | h
            · exact Or.inl (Classical.not_not.mp (by simpa using h))
            · exact Or.inr (Classical.not_not.mp h)
          have htail := findSegments_placedTail (seg2 :: rest) (0 + seg.length) hm hanchor
          rw [specMatch_cons_cons s hsegs]
          exact ⟨0, Or.inr rfl, hocck, htail⟩
  · intro hs
    rw [specMatch_cons_cons s hsegs] at hs
    obtain ⟨j, hanch, hocc, htail⟩ := hs
    unfold matchesPattern
    rw [hhead, hlast]
    have h1 : ¬ (seg ≠ [] ∧ ¬ seg <+: s) := by
      rintro ⟨hne, hnp⟩
      rcases hanch with h | h
      · exact hne h
      · subst h
        exact hnp (by simpa using hocc.1)
    have h2 : ¬ ((seg2 :: rest).getLastD [] ≠ [] ∧ ¬ (seg2 :: rest).getLastD [] <:+ s) := by
      rintro ⟨hne, hns⟩
      exact hns (PlacedTail.suffix (seg2 :: rest) _ htail hne)
    rw [if_neg h1, if_neg h2, hsegs]
    refine PlacedFrom.findSegments (seg :: seg2 :: rest) 0 ?_
    exact ⟨j, Nat.zero_le j, hocc, (htail.toPlacedFrom _ _ : PlacedFrom s (seg2 :: rest) _)⟩

theorem splitOnStar_no_star :
    ∀ (l : List Char), '*' ∉ l → splitOnStar l = [l] := by
  intro l
  induction l with
  | nil => intro _; rfl
  | cons c rest ih =>
    intro h
    have hc : c ≠ '*' := fun hc => h (by simp [hc])
    have hrest : '*' ∉ rest := fun hm => h (List.mem_cons_of_mem c hm)
    simp only [splitOnStar, if_neg hc, ih hrest]

/-- Behavior of the matcher on a pattern with no `'*'`: acceptance is
equivalent to the candidate both starting and ending with the pattern. -/
theorem matchesPattern_no_star {s p : List Char} (h : '*' ∉ p) :
    matchesPattern s p = true ↔ (p <+: s ∧ p <:+ s) := by
  have hsp := splitOnStar_no_star p h
  unfold matchesPattern
  rw [hsp]
  simp only [List.headD, getLastD_singleton]
  by_cases hp : p = []
  · subst hp
    simp only [ne_eq, not_true_eq_false, false_and, if_false]
    constructor
    · intro _; exact ⟨List.nil_prefix, List.nil_suffix⟩
    · intro _
      simp only [RelayModel.findSegments, strFind_nil_zero]
  · by_cases h1 : p <+: s
    · by_cases h2 : p <:+ s
      · rw [if_neg (by simp [hp, h1]), if_neg (by simp [hp, h2])]
        constructor
        · intro _; exact ⟨h1, h2⟩
        · intro _
          have hocc : OccursAt s p 0 := by
            refine ⟨by simpa using h1, ?_⟩
            have := h1.length_le
            omega
          obtain ⟨k, hk, _⟩ := strFind_complete (Nat.le_refl 0) hocc
          simp only [RelayModel.findSegments, hk]
      · rw [if_neg (by simp [hp, h1]), if_pos (by simp [hp, h2])]
        simp [h2]
    · rw [if_pos (by simp [hp, h1])]
      simp [h1]

/-- C7: on a pattern containing at least one `'*'`, `_matches_pattern`
returns true exactly when the candidate decomposes so that the pattern's
`'*'`-separated segments occur in it in order without overlap, a non-empty
first segment anchored at the start and a non-empty last segment anchored at
the end; the four concrete examples from the specification evaluate as
stated. -/
theorem C7_pattern_matcher_correct :
    (∀ s p : String, containsStar p = true →
      (matchesPatternS s p = true ↔ SpecMatch s.toList p.toList))
    ∧ matchesPatternS "channelA123abc" "channelA*" = true
    ∧ matchesPatternS "eventX" "*eventX" = true
    ∧ matchesPatternS "ABCdefXYZ123end" "ABC*def*XYZ*123*" = true
    ∧ matchesPatternS "channelZ" "channelA*" = false := by
  refine ⟨?_, by decide, by decide, by decide, by decide⟩
  intro s p h
  have hstar : '*' ∈ p.toList := by
    simpa [containsStar] using h
  exact matchesPattern_iff_specMatch hstar

/-- Witness for C7 at a concrete input: pattern `"a*b"` contains `'*'` and
the equivalence instantiates at candidate `"acb"`. -/
theorem C7_pattern_matcher_correct_witness :
    containsStar "a*b" = true ∧ SpecMatch "acb".toList "a*b".toList :=
  ⟨by decide, (C7_pattern_matcher_correct.1 "acb" "a*b" (by decide)).mp (by decide)⟩

/-- C8 counterexample: a pattern with no `'*'` accepts a candidate different
from itself (`"abab"` vs `"ab"`), and the empty pattern accepts a non-empty
candidate (`"x"`), contradicting the claimed exact-equality semantics. -/
theorem C8_counterexample :
    matchesPatternS "abab" "ab" = true ∧ "abab" ≠ "ab"
    ∧ matchesPatternS "x" "" = true ∧ "x" ≠ "" := by
  exact ⟨by decide, by decide, by decide, by decide⟩

/-- C8 (amended): for a pattern `p` with no `'*'`, the matcher accepts a
candidate `s` exactly when `s` starts with `p` and ends with `p` (so `s = p`
is accepted, but so are longer candidates bracketed by `p`); in particular
the empty pattern accepts every candidate. -/
theorem C8_no_star_exact :
    ∀ s p : String, containsStar p = false →
      (matchesPatternS s p = true ↔ (p.toList <+: s.toList ∧ p.toList <:+ s.toList)) := by
  intro s p h
  have hstar : '*' ∉ p.toList := by
    rw [containsStar] at h
    simpa using h
  exact matchesPattern_no_star hstar

/-- Witness for C8 (amended) at a concrete input. -/
theorem C8_no_star_exact_witness :
    containsStar "ab" = false ∧
      (matchesPatternS "abab" "ab" = true ↔
        ("ab".toList <+: "abab".toList ∧ "ab".toList <:+ "abab".toList)) :=
  ⟨by decide, C8_no_star_exact "abab" "ab" (by decide)⟩

end RelayModel

namespace RelayModel

/-! ### Association-list lemmas -/

section AListLemmas

variable {α β : Type} [DecidableEq α]

theorem alookup_aset_self (m : List (α × β)) (k : α) (v : β) :
    alookup (aset m k v) k = some v := by
  induction m with
  | nil => simp [aset, alookup]
  | cons kv rest ih =>
    rcases kv with ⟨k0, v0⟩
    by_cases h : k0 = k
    · simp only [aset, if_pos h, alookup]
    · simp only [aset, if_neg h, alookup]
      exact ih

theorem alookup_aset_ne (m : List (α × β)) (k : α) (v : β) {k' : α} (h : k' ≠ k) :
    alookup (aset m k v) k' = alookup m k' := by
  induction m with
  | nil =>
    simp only [aset, alookup]
    rw [if_neg (fun he : k = k' => h he.symm)]
  | cons kv rest ih =>
    rcases kv with ⟨k0, v0⟩
    by_cases h1 : k0 = k
    · simp only [aset, if_pos h1, alookup]
      rw [if_neg (h1 ▸ fun he : k0 = k' => h (he ▸ h1)), if_neg (fun he : k0 = k' => h (he ▸ h1))]
    · simp only [aset, if_neg h1, alookup]
      by_cases h2 : k0 = k'
      · rw [if_pos h2, if_pos h2]
      · rw [if_neg h2, if_neg h2]
        exact ih

theorem aset_of_lookup_eq {m : List (α × β)} {k : α} {v : β} (h : alookup m k = some v) :
    aset m k v = m := by
  induction m with
  | nil => simp [alookup] at h
  | cons kv rest ih =>
    rcases kv with ⟨k0, v0⟩
    simp only [alookup] at h
    by_cases h1 : k0 = k
    · rw [if_pos h1] at h
      cases h
      simp only [aset]
      rw [if_pos h1]
    · rw [if_neg h1] at h
      simp only [aset]
      rw [if_neg h1, ih h]

theorem aset_of_lookup_none {m : List (α × β)} {k : α} (h : alookup m k = none) (v : β) :
    aset m k v = m ++ [(k, v)] := by
  induction m with
  | nil => simp [aset]
  | cons kv rest ih =>
    rcases kv with ⟨k0, v0⟩
    simp only [alookup] at h
    by_cases h1 : k0 = k
    · rw [if_pos h1] at h; cases h
    · rw [if_neg h1] at h
      simp only [aset]
      rw [if_neg h1, ih h]
      simp

theorem alookup_append_left {m m2 : List (α × β)} {k : α} {v : β}
    (h : alookup m k = some v) : alookup (m ++ m2) k = some v := by
  induction m with
  | nil => simp [alookup] at h
  | cons kv rest ih =>
    rcases kv with ⟨k0, v0⟩
    simp only [alookup, List.cons_append] at h ⊢
    by_cases h1 : k0 = k
    · rw [if_pos h1] at h ⊢; exact h
    · rw [if_neg h1] at h ⊢; exact ih h

theorem alookup_append_right {m : List (α × β)} {k : α} (h : alookup m k = none)
    (m2 : List (α × β)) : alookup (m ++ m2) k = alookup m2 k := by
  induction m with
  | nil => simp
  | cons kv rest ih =>
    rcases kv with ⟨k0, v0⟩
    simp only [alookup, List.cons_append] at h ⊢
    by_cases h1 : k0 = k
    · rw [if_pos h1] at h; cases h
    · rw [if_neg h1] at h ⊢; exact ih h

theorem alookup_adel_ne (m : List (α × β)) (k : α) {k' : α} (h : k' ≠ k) :
    alookup (adel m k) k' = alookup m k' := by
  induction m with
  | nil => simp [adel]
  | cons kv rest ih =>
    rcases kv with ⟨k0, v0⟩
    by_cases h1 : k0 = k
    · simp only [adel, if_pos h1, alookup]
      rw [if_neg (fun he : k0 = k' => h (he ▸ h1))]
    · simp only [adel, if_neg h1, alookup]
      by_cases h2 : k0 = k'
      · rw [if_pos h2, if_pos h2]
      · rw [if_neg h2, if_neg h2]
        exact ih

theorem alookup_eq_none_iff (m : List (α × β)) (k : α) :
    alookup m k = none ↔ k ∉ m.map Prod.fst := by
  induction m with
  | nil => simp [alookup]
  | cons kv rest ih =>
    rcases kv with ⟨k0, v0⟩
    simp only [alookup, List.map_cons, List.mem_cons]
    by_cases h1 : k0 = k
    · rw [if_pos h1]
      simp [h1]
    · rw [if_neg h1]
      rw [ih]
      constructor
      · rintro hn (he | hm)
        · exact h1 he.symm
        · exact hn hm
      · intro hn hm
        exact hn (Or.inr hm)

theorem alookup_adel_self {m : List (α × β)} (hnd : (m.map Prod.fst).Nodup) (k : α) :
    alookup (adel m k) k = none := by
  induction m with
  | nil => simp [adel, alookup]
  | cons kv rest ih =>
    rcases kv with ⟨k0, v0⟩
    simp only [List.map_cons, List.nodup_cons] at hnd
    by_cases h1 : k0 = k
    · subst h1
      simp only [adel, if_pos rfl]
      exact (alookup_eq_none_iff rest k0).mpr hnd.1
    · simp only [adel, if_neg h1, alookup]
      exact ih hnd.2

theorem keys_aset_of_lookup_some {m : List (α × β)} {k : α} {v0 : β}
    (h : alookup m k = some v0) (v : β) :
    (aset m k v).map Prod.fst = m.map Prod.fst := by
  induction m with
  | nil => simp [alookup] at h
  | cons kv rest ih =>
    rcases kv with ⟨k0, w⟩
    simp only [alookup] at h
    by_cases h1 : k0 = k
    · simp [aset, h1]
    · rw [if_neg h1] at h
      simp only [aset, if_neg h1, List.map_cons]
      rw [ih h]

theorem keys_adel_sublist (m : List (α × β)) (k : α) :
    ((adel m k).map Prod.fst).Sublist (m.map Prod.fst) := by
  induction m with
  | nil => simp [adel]
  | cons kv rest ih =>
    rcases kv with ⟨k0, w⟩
    by_cases h1 : k0 = k
    · simp only [adel, if_pos h1, List.map_cons]
      exact List.sublist_cons_self _ _
    · simp only [adel, if_neg h1, List.map_cons]
      exact ih.cons₂ _

theorem nodup_keys_aset {m : List (α × β)} (hnd : (m.map Prod.fst).Nodup) (k : α) (v : β) :
    ((aset m k v).map Prod.fst).Nodup := by
  cases h : alookup m k with
  | some v0 => rw [keys_aset_of_lookup_some h]; exact hnd
  | none =>
    rw [aset_of_lookup_none h]
    have hk : k ∉ m.map Prod.fst := (alookup_eq_none_iff m k).mp h
    simp only [List.map_append, List.map_cons, List.map_nil]
    rw [List.nodup_append]
    refine ⟨hnd, List.nodup_singleton k, ?_⟩
    intro a ha hb
    simp only [List.mem_singleton] at hb
    exact hk (hb ▸ ha)

theorem nodup_keys_adel {m : List (α × β)} (hnd : (m.map Prod.fst).Nodup) (k : α) :
    ((adel m k).map Prod.fst).Nodup :=
  (keys_adel_sublist m k).nodup hnd

end AListLemmas

end RelayModel

namespace RelayModel

/-! ### `agetCreate` characterizations and pydantic-equality lemmas -/

section AgetCreate

variable {α β : Type} [DecidableEq α]

theorem agetCreate_fst (m : List (α × β)) (k : α) (d : β) :
    (agetCreate m k d).1 = (alookup m k).getD d := by
  unfold agetCreate
  cases alookup m k <;> rfl

theorem agetCreate_snd_some {m : List (α × β)} {k : α} {v : β}
    (h : alookup m k = some v) (d : β) : (agetCreate m k d).2 = m := by
  unfold agetCreate
  rw [h]

theorem agetCreate_snd_none {m : List (α × β)} {k : α}
    (h : alookup m k = none) (d : β) : (agetCreate m k d).2 = m ++ [(k, d)] := by
  unfold agetCreate
  rw [h]

theorem aset_append_single {m : List (α × β)} {k : α} (h : alookup m k = none)
    (d v : β) : aset (m ++ [(k, d)]) k v = m ++ [(k, v)] := by
  induction m with
  | nil => simp [aset]
  | cons kv rest ih =>
    rcases kv with ⟨k0, v0⟩
    simp only [alookup] at h
    by_cases h1 : k0 = k
    · rw [if_pos h1] at h; cases h
    · rw [if_neg h1] at h
      simp only [List.cons_append, aset, if_neg h1, List.append_eq]
      have h2 := ih h
      simp only [List.append_eq] at h2
      rw [h2]

theorem aset_agetCreate_snd (m : List (α × β)) (k : α) (d v : β) :
    aset (agetCreate m k d).2 k v = aset m k v := by
  cases h : alookup m k with
  | some v0 => rw [agetCreate_snd_some h]
  | none =>
    rw [agetCreate_snd_none h, aset_append_single h, aset_of_lookup_none h]

theorem alookup_agetCreate_snd (m : List (α × β)) (k : α) (d : β) :
    alookup (agetCreate m k d).2 k = some ((alookup m k).getD d) := by
  cases h : alookup m k with
  | some v0 => rw [agetCreate_snd_some h, h]; rfl
  | none =>
    rw [agetCreate_snd_none h, alookup_append_right h]
    simp [alookup]

end AgetCreate

theorem Binding.pyEq_refl (b : Binding) : Binding.pyEq b b = true := by
  simp [Binding.pyEq]

theorem Binding.pyEq_fields {a b : Binding} (h : Binding.pyEq a b = true) :
    a.method = b.method ∧ a.event_type = b.event_type ∧ a.channel = b.channel ∧
      a.role = b.role := by
  simpa [Binding.pyEq, and_assoc] using h

theorem Binding.pyEq_of_fields {a b : Binding} (h1 : a.method = b.method)
    (h2 : a.event_type = b.event_type) (h3 : a.channel = b.channel) (h4 : a.role = b.role) :
    Binding.pyEq a b = true := by
  simp [Binding.pyEq, h1, h2, h3, h4]

theorem listMemPy_congr {b b' : Binding} (h : Binding.pyEq b b' = true)
    (l : List Binding) : listMemPy b l = listMemPy b' l := by
  obtain ⟨h1, h2, h3, h4⟩ := Binding.pyEq_fields h
  unfold listMemPy
  congr 1
  funext x
  unfold Binding.pyEq
  rw [h1, h2, h3, h4]

theorem listMemPy_pyInsert (b : Binding) (l : List Binding) :
    listMemPy b (pyInsert b l) = true := by
  unfold pyInsert
  by_cases h : listMemPy b l = true
  · rw [if_pos h]; exact h
  · rw [if_neg h]
    unfold listMemPy
    rw [List.any_append]
    simp [listMemPy, Binding.pyEq_refl]

/-! ### Normalized equations for `add` and `remove` -/

theorem chnlLeaf_eq (st : Registry) (c et : String) :
    chnlLeaf st c et = (alookup ((alookup st.byChnlAndType c).getD []) et).getD [] := by
  unfold chnlLeaf
  cases alookup st.byChnlAndType c with
  | none => simp [alookup]
  | some cmap => simp

theorem Bindings.add_spec (st : Registry) (b : Binding) {c et : String}
    {mth : PyCallable} {o : OwnerRef}
    (h : Bindings._get_binding_data b = .ok (c, et, mth, o)) :
    Bindings.add st b =
      ({ byChnlAndType :=
           aset st.byChnlAndType c
             (aset ((alookup st.byChnlAndType c).getD []) et (pyInsert b (chnlLeaf st c et))),
         byRelay := aset st.byRelay o (pyInsert b (relayLeaf st o)),
         byMethod := aset st.byMethod mth (pyInsert b (methodLeaf st mth)) }, none) := by
  unfold Bindings.add
  rw [h]
  simp only [agetCreate_fst, aset_agetCreate_snd, chnlLeaf_eq, pyInsert, relayLeaf, methodLeaf]

theorem Bindings.remove_spec (st : Registry) (b : Binding) {c et : String}
    {mth : PyCallable} {o : OwnerRef}
    (h : Bindings._get_binding_data b = .ok (c, et, mth, o)) :
    Bindings.remove st (some b) =
      ({ byChnlAndType := pyRemoveChnl st.byChnlAndType c et b,
         byRelay := pyRemoveIdx st.byRelay o b,
         byMethod := pyRemoveIdx st.byMethod mth b }, none) := by
  simp only [Bindings.remove, pyRemoveChnl, pyRemoveIdx]
  rw [h]
  simp only [agetCreate_fst, aset_agetCreate_snd]

end RelayModel

namespace RelayModel

/-! ### Lemmas about `__eq__`-based list membership, removal and insertion -/

theorem Binding.pyEq_comm (a b : Binding) : Binding.pyEq a b = Binding.pyEq b a := by
  unfold Binding.pyEq
  by_cases h1 : a.method = b.method <;> by_cases h2 : a.event_type = b.event_type <;>
    by_cases h3 : a.channel = b.channel <;> by_cases h4 : a.role = b.role <;>
    simp [h1, h2, h3, h4, eq_comm]

theorem Binding.pyEq_trans3 {x y b : Binding} (hx : Binding.pyEq x b = true)
    (hy : Binding.pyEq y b = true) : Binding.pyEq x y = true := by
  obtain ⟨x1, x2, x3, x4⟩ := Binding.pyEq_fields hx
  obtain ⟨y1, y2, y3, y4⟩ := Binding.pyEq_fields hy
  exact Binding.pyEq_of_fields (y1 ▸ x1) (y2 ▸ x2) (y3 ▸ x3) (y4 ▸ x4)

theorem listMemPy_iff {b : Binding} {l : List Binding} :
    listMemPy b l = true ↔ ∃ x ∈ l, Binding.pyEq x b = true := by
  unfold listMemPy
  rw [List.any_eq_true]

theorem listMemPy_eq_false_iff {b : Binding} {l : List Binding} :
    listMemPy b l = false ↔ ∀ x ∈ l, Binding.pyEq x b = false := by
  unfold listMemPy
  rw [List.any_eq_false]
  constructor
  · intro h x hx
    exact Bool.eq_false_iff.mpr (h x hx)
  · intro h x hx
    exact Bool.eq_false_iff.mp (h x hx)

theorem listRemovePy_sublist (b : Binding) (l : List Binding) :
    (listRemovePy b l).Sublist l := by
  induction l with
  | nil => simp [listRemovePy]
  | cons x rest ih =>
    unfold listRemovePy
    by_cases h : Binding.pyEq x b = true
    · rw [if_pos h]; exact List.sublist_cons_self x rest
    · rw [if_neg h]; exact ih.cons₂ x

theorem listRemovePy_of_not_mem {b : Binding} {l : List Binding}
    (h : listMemPy b l = false) : listRemovePy b l = l := by
  induction l with
  | nil => rfl
  | cons x rest ih =>
    rw [listMemPy_eq_false_iff] at h
    unfold listRemovePy
    rw [if_neg (by simp [h x (List.mem_cons_self x rest)])]
    rw [ih (listMemPy_eq_false_iff.mpr fun y hy => h y (List.mem_cons_of_mem x hy))]

theorem mem_listRemovePy_of_pyEq_false {x b : Binding} (h : Binding.pyEq x b = false)
    (l : List Binding) : x ∈ listRemovePy b l ↔ x ∈ l := by
  induction l with
  | nil => simp [listRemovePy]
  | cons y rest ih =>
    unfold listRemovePy
    by_cases hy : Binding.pyEq y b = true
    · rw [if_pos hy]
      have hxy : x ≠ y := fun he => by rw [he, hy] at h; cases h
      simp [List.mem_cons, hxy]
    · rw [if_neg hy]
      simp [List.mem_cons, ih]

theorem not_mem_listRemovePy_of_pyEq {x b : Binding} (hx : Binding.pyEq x b = true) :
    ∀ {l : List Binding}, (l.Pairwise fun a c => Binding.pyEq a c = false) →
      x ∉ listRemovePy b l := by
  intro l
  induction l with
  | nil => intro _ hmem; simp [listRemovePy] at hmem
  | cons y rest ih =>
    intro hpw hmem
    rw [List.pairwise_cons] at hpw
    unfold listRemovePy at hmem
    by_cases hy : Binding.pyEq y b = true
    · rw [if_pos hy] at hmem
      have := hpw.1 x hmem
      rw [Binding.pyEq_trans3 hy hx] at this
      cases this
    · rw [if_neg hy] at hmem
      rcases List.mem_cons.mp hmem with he | hm
      · rw [he] at hx; exact hy hx
      · exact ih hpw.2 hm

theorem mem_pyInsert {x b : Binding} {l : List Binding} :
    x ∈ pyInsert b l ↔ x ∈ l ∨ (listMemPy b l = false ∧ x = b) := by
  unfold pyInsert
  by_cases h : listMemPy b l = true
  · rw [if_pos h]
    simp [h]
  · rw [if_neg h]
    rw [Bool.not_eq_true] at h
    simp [h, List.mem_append]

theorem pyInsert_pairwise {b : Binding} {l : List Binding}
    (hpw : l.Pairwise fun a c => Binding.pyEq a c = false) :
    (pyInsert b l).Pairwise fun a c => Binding.pyEq a c = false := by
  unfold pyInsert
  by_cases h : listMemPy b l = true
  · rw [if_pos h]; exact hpw
  · rw [if_neg h]
    rw [Bool.not_eq_true, listMemPy_eq_false_iff] at h
    rw [List.pairwise_append]
    refine ⟨hpw, List.pairwise_singleton _ _, ?_⟩
    intro a ha c hc
    simp only [List.mem_singleton] at hc
    subst hc
    exact h a ha

theorem pyInsert_ne_nil (b : Binding) (l : List Binding) : pyInsert b l ≠ [] := by
  unfold pyInsert
  by_cases h : listMemPy b l = true
  · rw [if_pos h]
    intro he
    subst he
    simp [listMemPy] at h
  · rw [if_neg h]
    simp

theorem adel_of_lookup_none {α β : Type} [DecidableEq α] {m : List (α × β)} {k : α}
    (h : alookup m k = none) : adel m k = m := by
  induction m with
  | nil => rfl
  | cons kv rest ih =>
    rcases kv with ⟨k0, v0⟩
    simp only [alookup] at h
    by_cases h1 : k0 = k
    · rw [if_pos h1] at h; cases h
    · rw [if_neg h1] at h
      simp only [adel, if_neg h1, ih h]

end RelayModel

namespace RelayModel

/-! ### Characterizations of the normalized removal operations -/

section RemoveIdx

variable {κ : Type} [DecidableEq κ]

theorem adel_append_single {m : List (κ × List Binding)} {k : κ}
    (h : alookup m k = none) (v : List Binding) : adel (m ++ [(k, v)]) k = m := by
  induction m with
  | nil => simp [adel]
  | cons kv rest ih =>
    rcases kv with ⟨k0, v0⟩
    simp only [alookup] at h
    by_cases h1 : k0 = k
    · rw [if_pos h1] at h; cases h
    · rw [if_neg h1] at h
      simp only [List.cons_append, adel, if_neg h1, List.append_eq]
      have h2 := ih h
      simp only [List.append_eq] at h2
      rw [h2]

theorem pyRemoveIdx_lookup_ne (idx : List (κ × List Binding)) (k : κ) (b : Binding)
    {k' : κ} (h : k' ≠ k) :
    alookup (pyRemoveIdx idx k b) k' = alookup idx k' := by
  simp only [pyRemoveIdx]
  by_cases hm : listMemPy b ((alookup idx k).getD []) = true
  · rw [if_pos hm]
    by_cases he : ((alookup (aset idx k (listRemovePy b ((alookup idx k).getD []))) k).getD
        []).isEmpty = true
    · rw [if_pos he, alookup_adel_ne _ _ h, alookup_aset_ne _ _ _ h]
    · rw [if_neg he, alookup_aset_ne _ _ _ h]
  · rw [if_neg hm]
    by_cases he : ((alookup idx k).getD []).isEmpty = true
    · rw [if_pos he, alookup_adel_ne _ _ h]
    · rw [if_neg he]

theorem pyRemoveIdx_lookup_self {idx : List (κ × List Binding)}
    (hnd : (idx.map Prod.fst).Nodup) (k : κ) (b : Binding) :
    alookup (pyRemoveIdx idx k b) k =
      match alookup idx k with
      | none => none
      | some l0 =>
        if (listRemovePy b l0).isEmpty then none else some (listRemovePy b l0) := by
  simp only [pyRemoveIdx]
  cases h : alookup idx k with
  | none =>
    have hidx1 : (if listMemPy b ((none : Option (List Binding)).getD []) = true
        then aset idx k (listRemovePy b ((none : Option (List Binding)).getD [])) else idx)
          = idx := by
      simp [listMemPy]
    rw [hidx1, h]
    simp only [Option.getD_none, List.isEmpty_nil, if_true]
    rw [adel_of_lookup_none h]
    exact h
  | some l0 =>
    simp only [Option.getD_some]
    by_cases hm : listMemPy b l0 = true
    · rw [if_pos hm]
      have hs := alookup_aset_self idx k (listRemovePy b l0)
      rw [hs]
      simp only [Option.getD_some]
      by_cases he : (listRemovePy b l0).isEmpty = true
      · rw [if_pos he, if_pos he]
        exact alookup_adel_self (nodup_keys_aset hnd k _) k
      · rw [if_neg he, if_neg he, hs]
    · rw [if_neg hm]
      have hrm : listRemovePy b l0 = l0 := listRemovePy_of_not_mem (Bool.not_eq_true _ ▸ hm)
      rw [h]
      simp only [Option.getD_some, hrm]
      by_cases he : l0.isEmpty = true
      · rw [if_pos he, if_pos he]
        exact alookup_adel_self hnd k
      · rw [if_neg he, if_neg he, h]

theorem pyRemoveIdx_keys_nodup {idx : List (κ × List Binding)}
    (hnd : (idx.map Prod.fst).Nodup) (k : κ) (b : Binding) :
    ((pyRemoveIdx idx k b).map Prod.fst).Nodup := by
  simp only [pyRemoveIdx]
  by_cases hm : listMemPy b ((alookup idx k).getD []) = true
  · rw [if_pos hm]
    by_cases he : ((alookup (aset idx k (listRemovePy b ((alookup idx k).getD []))) k).getD
        []).isEmpty = true
    · rw [if_pos he]; exact nodup_keys_adel (nodup_keys_aset hnd k _) k
    · rw [if_neg he]; exact nodup_keys_aset hnd k _
  · rw [if_neg hm]
    by_cases he : ((alookup idx k).getD []).isEmpty = true
    · rw [if_pos he]; exact nodup_keys_adel hnd k
    · rw [if_neg he]; exact hnd

theorem pyRemoveIdx_leaf_self {idx : List (κ × List Binding)}
    (hnd : (idx.map Prod.fst).Nodup) (k : κ) (b : Binding) :
    (alookup (pyRemoveIdx idx k b) k).getD [] = listRemovePy b ((alookup idx k).getD []) := by
  rw [pyRemoveIdx_lookup_self hnd]
  cases h : alookup idx k with
  | none => rfl
  | some l0 =>
    simp only [Option.getD_some]
    by_cases he : (listRemovePy b l0).isEmpty = true
    · rw [if_pos he]
      rw [List.isEmpty_iff] at he
      rw [he]; rfl
    · rw [if_neg he]; rfl

end RemoveIdx

theorem pyRemoveChnl_eq (outer : List (String × List (String × List Binding)))
    (c et : String) (b : Binding) :
    pyRemoveChnl outer c et b =
      (if (pyRemoveIdx ((alookup outer c).getD []) et b).isEmpty then
        adel (aset outer c (pyRemoveIdx ((alookup outer c).getD []) et b)) c
      else aset outer c (pyRemoveIdx ((alookup outer c).getD []) et b)) := rfl

theorem pyRemoveChnl_lookup_ne (outer : List (String × List (String × List Binding)))
    (c et : String) (b : Binding) {c' : String} (h : c' ≠ c) :
    alookup (pyRemoveChnl outer c et b) c' = alookup outer c' := by
  rw [pyRemoveChnl_eq]
  by_cases he : (pyRemoveIdx ((alookup outer c).getD []) et b).isEmpty = true
  · rw [if_pos he, alookup_adel_ne _ _ h, alookup_aset_ne _ _ _ h]
  · rw [if_neg he, alookup_aset_ne _ _ _ h]

theorem pyRemoveChnl_lookup_self {outer : List (String × List (String × List Binding))}
    (hnd : (outer.map Prod.fst).Nodup) (c et : String) (b : Binding) :
    alookup (pyRemoveChnl outer c et b) c =
      (if (pyRemoveIdx ((alookup outer c).getD []) et b).isEmpty then none
       else some (pyRemoveIdx ((alookup outer c).getD []) et b)) := by
  rw [pyRemoveChnl_eq]
  by_cases he : (pyRemoveIdx ((alookup outer c).getD []) et b).isEmpty = true
  · rw [if_pos he, if_pos he]
    exact alookup_adel_self (nodup_keys_aset hnd c _) c
  · rw [if_neg he, if_neg he]
    exact alookup_aset_self outer c _

theorem pyRemoveChnl_keys_nodup {outer : List (String × List (String × List Binding))}
    (hnd : (outer.map Prod.fst).Nodup) (c et : String) (b : Binding) :
    ((pyRemoveChnl outer c et b).map Prod.fst).Nodup := by
  rw [pyRemoveChnl_eq]
  by_cases he : (pyRemoveIdx ((alookup outer c).getD []) et b).isEmpty = true
  · rw [if_pos he]; exact nodup_keys_adel (nodup_keys_aset hnd c _) c
  · rw [if_neg he]; exact nodup_keys_aset hnd c _

end RelayModel

namespace RelayModel

/-! ### Leaf-level characterizations and `_get_binding_data` facts -/

theorem agetCreate_snd_eq {α β : Type} [DecidableEq α] (m : List (α × β)) (k : α) (d : β) :
    (agetCreate m k d).2 = aset m k ((alookup m k).getD d) := by
  cases h : alookup m k with
  | some v =>
    rw [agetCreate_snd_some h]
    simp only [Option.getD_some]
    rw [aset_of_lookup_eq h]
  | none =>
    rw [agetCreate_snd_none h]
    simp only [Option.getD_none]
    rw [aset_of_lookup_none h]

theorem aset_ne_nil {α β : Type} [DecidableEq α] (m : List (α × β)) (k : α) (v : β) :
    aset m k v ≠ [] := by
  cases m with
  | nil => simp [aset]
  | cons kv rest =>
    rcases kv with ⟨k0, v0⟩
    by_cases h : k0 = k <;> simp [aset, h]

theorem getBindingData_ok_elim {b : Binding} {c et : String} {mth : PyCallable}
    {o : OwnerRef} (h : Bindings._get_binding_data b = .ok (c, et, mth, o)) :
    c = b.channel ∧ et = b.event_type ∧ mth = b.method ∧ ∃ fn, b.method = .bound o fn := by
  unfold Bindings._get_binding_data at h
  cases hm : b.method with
  | bound o' fn =>
    rw [hm] at h
    cases h
    exact ⟨rfl, rfl, rfl, fn, rfl⟩
  | plainFn fn => rw [hm] at h; cases h
  | otherCallable i => rw [hm] at h; cases h

theorem getBindingData_of_bound {b : Binding} {o : OwnerRef} {fn : Nat}
    (h : b.method = .bound o fn) :
    Bindings._get_binding_data b = .ok (b.channel, b.event_type, b.method, o) := by
  unfold Bindings._get_binding_data
  rw [h]

theorem getBindingData_err {b : Binding}
    (h : ∀ o fn, b.method ≠ .bound o fn) :
    Bindings._get_binding_data b = .error .valueError := by
  unfold Bindings._get_binding_data
  cases hm : b.method with
  | bound o fn => exact absurd hm (h o fn)
  | plainFn fn => rfl
  | otherCallable i => rfl

/-- Leaves of the registry produced by `add` (success case). -/
theorem add_leaves (st : Registry) (b : Binding) {c et : String} {mth : PyCallable}
    {o : OwnerRef} (h : Bindings._get_binding_data b = .ok (c, et, mth, o)) :
    (∀ x y, chnlLeaf (Bindings.add st b).1 x y =
      if x = c ∧ y = et then pyInsert b (chnlLeaf st c et) else chnlLeaf st x y) ∧
    (∀ o', relayLeaf (Bindings.add st b).1 o' =
      if o' = o then pyInsert b (relayLeaf st o) else relayLeaf st o') ∧
    (∀ m', methodLeaf (Bindings.add st b).1 m' =
      if m' = mth then pyInsert b (methodLeaf st mth) else methodLeaf st m') := by
  rw [Bindings.add_spec st b h]
  refine ⟨?_, ?_, ?_⟩
  · intro x y
    by_cases hx : x = c
    · by_cases hy : y = et
      · rw [if_pos ⟨hx, hy⟩, hx, hy]
        rw [chnlLeaf_eq]
        simp only [alookup_aset_self, Option.getD_some]
      · rw [if_neg (fun hp => hy hp.2), hx]
        rw [chnlLeaf_eq, chnlLeaf_eq st c y]
        simp only [alookup_aset_self, Option.getD_some]
        rw [alookup_aset_ne _ _ _ hy]
    · rw [if_neg (fun hp => hx hp.1)]
      rw [chnlLeaf_eq, chnlLeaf_eq st x y]
      rw [alookup_aset_ne _ _ _ hx]
  · intro o'
    unfold relayLeaf
    by_cases ho : o' = o
    · rw [if_pos ho, ho, alookup_aset_self]
      rfl
    · rw [if_neg ho, alookup_aset_ne _ _ _ ho]
  · intro m'
    unfold methodLeaf
    by_cases hm : m' = mth
    · rw [if_pos hm, hm, alookup_aset_self]
      rfl
    · rw [if_neg hm, alookup_aset_ne _ _ _ hm]

/-- Leaves of the registry produced by `remove` (success case). -/
theorem remove_leaves (st : Registry) (b : Binding) {c et : String} {mth : PyCallable}
    {o : OwnerRef} (h : Bindings._get_binding_data b = .ok (c, et, mth, o))
    (hnd : keysNodup st) :
    (∀ x y, chnlLeaf (Bindings.remove st (some b)).1 x y =
      if x = c ∧ y = et then listRemovePy b (chnlLeaf st c et) else chnlLeaf st x y) ∧
    (∀ o', relayLeaf (Bindings.remove st (some b)).1 o' =
      if o' = o then listRemovePy b (relayLeaf st o) else relayLeaf st o') ∧
    (∀ m', methodLeaf (Bindings.remove st (some b)).1 m' =
      if m' = mth then listRemovePy b (methodLeaf st mth) else methodLeaf st m') := by
  obtain ⟨hndA, hndI, hndR, hndM⟩ := hnd
  have hndc : (((alookup st.byChnlAndType c).getD []).map Prod.fst).Nodup := by
    cases hc : alookup st.byChnlAndType c with
    | none => simp
    | some cmap => exact hndI c cmap hc
  rw [Bindings.remove_spec st b h]
  have hcself : ∀ y, (alookup ((alookup (pyRemoveChnl st.byChnlAndType c et b) c).getD []) y).getD []
      = (alookup (pyRemoveIdx ((alookup st.byChnlAndType c).getD []) et b) y).getD [] := by
    intro y
    rw [pyRemoveChnl_lookup_self hndA]
    by_cases he : (pyRemoveIdx ((alookup st.byChnlAndType c).getD []) et b).isEmpty = true
    · rw [if_pos he, List.isEmpty_iff.mp he]
      rfl
    · rw [if_neg he]
      rfl
  refine ⟨?_, ?_, ?_⟩
  · intro x y
    by_cases hx : x = c
    · by_cases hy : y = et
      · rw [if_pos ⟨hx, hy⟩, hx, hy]
        rw [chnlLeaf_eq, chnlLeaf_eq st c et]
        rw [hcself et]
        exact pyRemoveIdx_leaf_self hndc et b
      · rw [if_neg (fun hp => hy hp.2), hx]
        rw [chnlLeaf_eq, chnlLeaf_eq st c y]
        rw [hcself y]
        rw [pyRemoveIdx_lookup_ne _ _ _ hy]
    · rw [if_neg (fun hp => hx hp.1)]
      rw [chnlLeaf_eq, chnlLeaf_eq st x y]
      rw [pyRemoveChnl_lookup_ne _ _ _ _ hx]
  · intro o'
    unfold relayLeaf
    by_cases ho : o' = o
    · rw [if_pos ho, ho]
      exact pyRemoveIdx_leaf_self hndR o b
    · rw [if_neg ho, pyRemoveIdx_lookup_ne _ _ _ ho]
  · intro m'
    unfold methodLeaf
    by_cases hm : m' = mth
    · rw [if_pos hm, hm]
      exact pyRemoveIdx_leaf_self hndM mth b
    · rw [if_neg hm, pyRemoveIdx_lookup_ne _ _ _ hm]

end RelayModel

namespace RelayModel

/-! ### Projections of the invariants to leaves -/

theorem mem_getD_alookup {α : Type} [DecidableEq α] {m : List (α × List Binding)} {k : α}
    {b : Binding} (h : b ∈ (alookup m k).getD []) : ∃ l, alookup m k = some l ∧ b ∈ l := by
  cases hl : alookup m k with
  | none => rw [hl] at h; simp at h
  | some l => rw [hl] at h; exact ⟨l, rfl, h⟩

theorem chnlLeaf_pairwise {st : Registry} (hpy : PyNodup st) (c et : String) :
    (chnlLeaf st c et).Pairwise fun a x => Binding.pyEq a x = false := by
  unfold chnlLeaf
  cases hc : alookup st.byChnlAndType c with
  | none => simp
  | some cmap =>
    show ((alookup cmap et).getD []).Pairwise fun a x => Binding.pyEq a x = false
    cases he : alookup cmap et with
    | none => simp
    | some l =>
      simpa using hpy.1 c cmap hc et l he

theorem relayLeaf_pairwise {st : Registry} (hpy : PyNodup st) (o : OwnerRef) :
    (relayLeaf st o).Pairwise fun a x => Binding.pyEq a x = false := by
  unfold relayLeaf
  cases hc : alookup st.byRelay o with
  | none => simp
  | some l => simpa using hpy.2.1 o l hc

theorem methodLeaf_pairwise {st : Registry} (hpy : PyNodup st) (m : PyCallable) :
    (methodLeaf st m).Pairwise fun a x => Binding.pyEq a x = false := by
  unfold methodLeaf
  cases hc : alookup st.byMethod m with
  | none => simp
  | some l => simpa using hpy.2.2 m l hc

theorem chnlLeaf_placed {st : Registry} (hpl : Placed st) (c et : String) :
    ∀ b ∈ chnlLeaf st c et,
      b.channel = c ∧ b.event_type = et ∧ ∃ o fn, b.method = .bound o fn := by
  intro b hb
  unfold chnlLeaf at hb
  cases hc : alookup st.byChnlAndType c with
  | none => rw [hc] at hb; simp at hb
  | some cmap =>
    rw [hc] at hb
    have hb' : b ∈ (alookup cmap et).getD [] := hb
    obtain ⟨l, hl, hbl⟩ := mem_getD_alookup hb'
    exact hpl.1 c cmap hc et l hl b hbl

theorem relayLeaf_placed {st : Registry} (hpl : Placed st) (o : OwnerRef) :
    ∀ b ∈ relayLeaf st o, ∃ fn, b.method = .bound o fn := by
  intro b hb
  obtain ⟨l, hl, hbl⟩ := mem_getD_alookup hb
  exact hpl.2.1 o l hl b hbl

theorem methodLeaf_placed {st : Registry} (hpl : Placed st) (m : PyCallable) :
    ∀ b ∈ methodLeaf st m, b.method = m ∧ ∃ o fn, m = .bound o fn := by
  intro b hb
  obtain ⟨l, hl, hbl⟩ := mem_getD_alookup hb
  exact hpl.2.2 m l hl b hbl

/-- Under coherence, the `__eq__`-presence guards that `add` evaluates on the
three indices agree for a bound binding. -/
theorem guards_agree {st : Registry} (hco : Coherent st) {b : Binding} {o : OwnerRef}
    {fn : Nat} (hb : b.method = .bound o fn) :
    listMemPy b (chnlLeaf st b.channel b.event_type) = listMemPy b (relayLeaf st o) ∧
    listMemPy b (relayLeaf st o) = listMemPy b (methodLeaf st b.method) := by
  have htrans : ∀ (l1 l2 : List Binding),
      (∀ x, Binding.pyEq x b = true → (x ∈ l1 ↔ x ∈ l2)) →
      listMemPy b l1 = listMemPy b l2 := by
    intro l1 l2 hx
    by_cases h1 : listMemPy b l1 = true
    · obtain ⟨x, hxm, hxe⟩ := listMemPy_iff.mp h1
      rw [h1]
      exact (listMemPy_iff.mpr ⟨x, (hx x hxe).mp hxm, hxe⟩).symm
    · by_cases h2 : listMemPy b l2 = true
      · obtain ⟨x, hxm, hxe⟩ := listMemPy_iff.mp h2
        exact absurd (listMemPy_iff.mpr ⟨x, (hx x hxe).mpr hxm, hxe⟩) h1
      · rw [Bool.not_eq_true] at h1 h2
        rw [h1, h2]
  constructor
  · refine htrans _ _ ?_
    intro x hxe
    obtain ⟨h1, h2, h3, h4⟩ := Binding.pyEq_fields hxe
    have hxb : x.method = .bound o fn := h1.trans hb
    have := (hco x o fn hxb).1
    rw [h2, h3] at this
    exact this
  · refine htrans _ _ ?_
    intro x hxe
    obtain ⟨h1, h2, h3, h4⟩ := Binding.pyEq_fields hxe
    have hxb : x.method = .bound o fn := h1.trans hb
    have := (hco x o fn hxb).2
    rw [h1] at this
    exact this

/-- `add` on a binding whose method is not bound raises and leaves the state
unchanged. -/
theorem Bindings.add_err {st : Registry} {b : Binding} {e : PyErr}
    (h : Bindings._get_binding_data b = .error e) :
    Bindings.add st b = (st, some e) := by
  unfold Bindings.add
  rw [h]

theorem Bindings.remove_err {st : Registry} {b : Binding} {e : PyErr}
    (h : Bindings._get_binding_data b = .error e) :
    Bindings.remove st (some b) = (st, some e) := by
  simp only [Bindings.remove]
  rw [h]

theorem Bindings.remove_none (st : Registry) :
    Bindings.remove st none = (st, none) := rfl

end RelayModel

namespace RelayModel

/-! ### `add` preserves the registry invariants -/

theorem add_preserves_inv {st : Registry} (hinv : Inv st) (b : Binding) :
    Inv (Bindings.add st b).1 := by
  obtain ⟨hkn, hpl, hco, hpy⟩ := hinv
  cases hdata : Bindings._get_binding_data b with
  | error e =>
    rw [Bindings.add_err hdata]
    exact ⟨hkn, hpl, hco, hpy⟩
  | ok data =>
    obtain ⟨c, et, mth, o⟩ := data
    obtain ⟨hc, het, hmth, fn, hbfn⟩ := getBindingData_ok_elim hdata
    have hndc : (((alookup st.byChnlAndType c).getD []).map Prod.fst).Nodup := by
      cases hAc : alookup st.byChnlAndType c with
      | none => simp
      | some m => exact hkn.2.1 c m hAc
    have hfield := Bindings.add_spec st b hdata
    obtain ⟨hLc, hLr, hLm⟩ := add_leaves st b hdata
    refine ⟨⟨?_, ?_, ?_, ?_⟩, ⟨?_, ?_, ?_⟩, ?_, ⟨?_, ?_, ?_⟩⟩
    · rw [hfield]
      exact nodup_keys_aset hkn.1 c _
    · rw [hfield]
      intro x cmap hx
      by_cases hxc : x = c
      · rw [hxc, alookup_aset_self] at hx
        cases hx
        exact nodup_keys_aset hndc et _
      · rw [alookup_aset_ne _ _ _ hxc] at hx
        exact hkn.2.1 x cmap hx
    · rw [hfield]
      exact nodup_keys_aset hkn.2.2.1 o _
    · rw [hfield]
      exact nodup_keys_aset hkn.2.2.2 mth _
    · rw [hfield]
      intro x cmap hx et' l hl b' hb'
      by_cases hxc : x = c
      · rw [hxc, alookup_aset_self] at hx
        cases hx
        by_cases hyet : et' = et
        · rw [hyet, alookup_aset_self] at hl
          cases hl
          rcases mem_pyInsert.mp hb' with hmem | ⟨_, hbe⟩
          · obtain ⟨h1, h2, h3⟩ := chnlLeaf_placed hpl c et b' hmem
            exact ⟨h1.trans hxc.symm, h2.trans hyet.symm, h3⟩
          · subst hbe
            exact ⟨hc.symm.trans hxc.symm, het.symm.trans hyet.symm, o, fn, hbfn⟩
        · rw [alookup_aset_ne _ _ _ hyet] at hl
          cases hAc : alookup st.byChnlAndType c with
          | none => rw [hAc] at hl; simp [alookup] at hl
          | some m =>
            rw [hAc] at hl
            simp only [Option.getD_some] at hl
            obtain ⟨h1, h2, h3⟩ := hpl.1 c m hAc et' l hl b' hb'
            exact ⟨h1.trans hxc.symm, h2, h3⟩
      · rw [alookup_aset_ne _ _ _ hxc] at hx
        exact hpl.1 x cmap hx et' l hl b' hb'
    · rw [hfield]
      intro o' l hl b' hb'
      by_cases ho : o' = o
      · rw [ho, alookup_aset_self] at hl
        cases hl
        rcases mem_pyInsert.mp hb' with hmem | ⟨_, hbe⟩
        · obtain ⟨fn', hfn'⟩ := relayLeaf_placed hpl o b' hmem
          exact ⟨fn', ho ▸ hfn'⟩
        · subst hbe
          exact ⟨fn, ho ▸ hbfn⟩
      · rw [alookup_aset_ne _ _ _ ho] at hl
        exact hpl.2.1 o' l hl b' hb'
    · rw [hfield]
      intro m' l hl b' hb'
      by_cases hm : m' = mth
      · rw [hm, alookup_aset_self] at hl
        cases hl
        rcases mem_pyInsert.mp hb' with hmem | ⟨_, hbe⟩
        · obtain ⟨h1, h2⟩ := methodLeaf_placed hpl mth b' hmem
          exact ⟨hm ▸ h1, hm ▸ h2⟩
        · subst hbe
          refine ⟨hm ▸ hmth.symm, ?_⟩
          rw [hm, hmth]
          exact ⟨o, fn, hbfn⟩
      · rw [alookup_aset_ne _ _ _ hm] at hl
        exact hpl.2.2 m' l hl b' hb'
    · -- Coherent
      intro b'' o'' fn'' hb''
      have hold := hco b'' o'' fn'' hb''
      rw [hLc, hLr, hLm]
      by_cases hbb : b'' = b
      · subst hbb
        have hoo : o'' = o := by
          rw [hbfn] at hb''
          cases hb''
          rfl
        have hg := guards_agree hco hbfn
        have hmc : (b'' ∈ if b''.channel = c ∧ b''.event_type = et then
            pyInsert b'' (chnlLeaf st c et) else chnlLeaf st b''.channel b''.event_type) ↔
            (b'' ∈ chnlLeaf st b''.channel b''.event_type ∨
              listMemPy b'' (chnlLeaf st b''.channel b''.event_type) = false) := by
          rw [if_pos ⟨hc.symm, het.symm⟩, mem_pyInsert, ← hc, ← het]
          simp
        have hmr : (b'' ∈ if o'' = o then pyInsert b'' (relayLeaf st o) else relayLeaf st o'')
            ↔ (b'' ∈ relayLeaf st o'' ∨ listMemPy b'' (relayLeaf st o'') = false) := by
          rw [if_pos hoo, mem_pyInsert, hoo]
          simp
        have hmm2 : (b'' ∈ if b''.method = mth then pyInsert b'' (methodLeaf st mth)
            else methodLeaf st b''.method) ↔
            (b'' ∈ methodLeaf st b''.method ∨
              listMemPy b'' (methodLeaf st b''.method) = false) := by
          rw [if_pos hmth.symm, mem_pyInsert, hmth]
          simp
        have hg1 : listMemPy b'' (chnlLeaf st b''.channel b''.event_type) =
            listMemPy b'' (relayLeaf st o'') := by
          rw [hoo]; exact hg.1
        have hg2 : listMemPy b'' (relayLeaf st o'') =
            listMemPy b'' (methodLeaf st b''.method) := by
          rw [hoo]; exact hg.2
        constructor
        · rw [hmc, hmr]
          exact or_congr hold.1 (by rw [hg1])
        · rw [hmr, hmm2]
          exact or_congr hold.2 (by rw [hg2])
      · have hred : ∀ (L : List Binding), b'' ∈ pyInsert b L ↔ b'' ∈ L := by
          intro L
          rw [mem_pyInsert]
          simp [hbb]
        have hmc : (b'' ∈ if b''.channel = c ∧ b''.event_type = et then
            pyInsert b (chnlLeaf st c et) else chnlLeaf st b''.channel b''.event_type) ↔
            b'' ∈ chnlLeaf st b''.channel b''.event_type := by
          by_cases h1 : b''.channel = c ∧ b''.event_type = et
          · rw [if_pos h1, hred, h1.1, h1.2]
          · rw [if_neg h1]
        have hmr : (b'' ∈ if o'' = o then pyInsert b (relayLeaf st o) else relayLeaf st o'')
            ↔ b'' ∈ relayLeaf st o'' := by
          by_cases h2 : o'' = o
          · rw [if_pos h2, hred, h2]
          · rw [if_neg h2]
        have hmm2 : (b'' ∈ if b''.method = mth then pyInsert b (methodLeaf st mth)
            else methodLeaf st b''.method) ↔ b'' ∈ methodLeaf st b''.method := by
          by_cases h3 : b''.method = mth
          · rw [if_pos h3, hred, h3]
          · rw [if_neg h3]
        exact ⟨hmc.trans (hold.1.trans hmr.symm), hmr.trans (hold.2.trans hmm2.symm)⟩
    · rw [hfield]
      intro x cmap hx et' l hl
      by_cases hxc : x = c
      · rw [hxc, alookup_aset_self] at hx
        cases hx
        by_cases hyet : et' = et
        · rw [hyet, alookup_aset_self] at hl
          cases hl
          exact pyInsert_pairwise (chnlLeaf_pairwise hpy c et)
        · rw [alookup_aset_ne _ _ _ hyet] at hl
          cases hAc : alookup st.byChnlAndType c with
          | none => rw [hAc] at hl; simp [alookup] at hl
          | some m =>
            rw [hAc] at hl
            simp only [Option.getD_some] at hl
            exact hpy.1 c m hAc et' l hl
      · rw [alookup_aset_ne _ _ _ hxc] at hx
        exact hpy.1 x cmap hx et' l hl
    · rw [hfield]
      intro o' l hl
      by_cases ho : o' = o
      · rw [ho, alookup_aset_self] at hl
        cases hl
        exact pyInsert_pairwise (relayLeaf_pairwise hpy o)
      · rw [alookup_aset_ne _ _ _ ho] at hl
        exact hpy.2.1 o' l hl
    · rw [hfield]
      intro m' l hl
      by_cases hm : m' = mth
      · rw [hm, alookup_aset_self] at hl
        cases hl
        exact pyInsert_pairwise (methodLeaf_pairwise hpy mth)
      · rw [alookup_aset_ne _ _ _ hm] at hl
        exact hpy.2.2 m' l hl

end RelayModel

namespace RelayModel

theorem add_preserves_noEmpty {st : Registry} (hne : NoEmpty st) (b : Binding) :
    NoEmpty (Bindings.add st b).1 := by
  cases hdata : Bindings._get_binding_data b with
  | error e =>
    rw [Bindings.add_err hdata]
    exact hne
  | ok data =>
    obtain ⟨c, et, mth, o⟩ := data
    have hfield := Bindings.add_spec st b hdata
    refine ⟨?_, ?_, ?_⟩
    · rw [hfield]
      intro x cmap hx
      by_cases hxc : x = c
      · rw [hxc, alookup_aset_self] at hx
        cases hx
        refine ⟨aset_ne_nil _ _ _, ?_⟩
        intro y l hl
        by_cases hyet : y = et
        · rw [hyet, alookup_aset_self] at hl
          cases hl
          exact pyInsert_ne_nil b _
        · rw [alookup_aset_ne _ _ _ hyet] at hl
          cases hAc : alookup st.byChnlAndType c with
          | none => rw [hAc] at hl; simp [alookup] at hl
          | some m =>
            rw [hAc] at hl
            simp only [Option.getD_some] at hl
            exact (hne.1 c m hAc).2 y l hl
      · rw [alookup_aset_ne _ _ _ hxc] at hx
        exact hne.1 x cmap hx
    · rw [hfield]
      intro o' l hl
      by_cases ho : o' = o
      · rw [ho, alookup_aset_self] at hl
        cases hl
        exact pyInsert_ne_nil b _
      · rw [alookup_aset_ne _ _ _ ho] at hl
        exact hne.2.1 o' l hl
    · rw [hfield]
      intro m' l hl
      by_cases hm : m' = mth
      · rw [hm, alookup_aset_self] at hl
        cases hl
        exact pyInsert_ne_nil b _
      · rw [alookup_aset_ne _ _ _ hm] at hl
        exact hne.2.2 m' l hl

/-! ### `remove` preserves the registry invariants -/

theorem remove_preserves_inv {st : Registry} (hinv : Inv st) (b? : Option Binding) :
    Inv (Bindings.remove st b?).1 := by
  obtain ⟨hkn, hpl, hco, hpy⟩ := hinv
  cases b? with
  | none => rw [Bindings.remove_none]; exact ⟨hkn, hpl, hco, hpy⟩
  | some b =>
    cases hdata : Bindings._get_binding_data b with
    | error e =>
      rw [Bindings.remove_err hdata]
      exact ⟨hkn, hpl, hco, hpy⟩
    | ok data =>
      obtain ⟨c, et, mth, o⟩ := data
      obtain ⟨hc, het, hmth, fn, hbfn⟩ := getBindingData_ok_elim hdata
      have hndc : (((alookup st.byChnlAndType c).getD []).map Prod.fst).Nodup := by
        cases hAc : alookup st.byChnlAndType c with
        | none => simp
        | some m => exact hkn.2.1 c m hAc
      have hfield := Bindings.remove_spec st b hdata
      obtain ⟨hLc, hLr, hLm⟩ := remove_leaves st b hdata ⟨hkn.1, hkn.2.1, hkn.2.2.1, hkn.2.2.2⟩
      refine ⟨⟨?_, ?_, ?_, ?_⟩, ⟨?_, ?_, ?_⟩, ?_, ⟨?_, ?_, ?_⟩⟩
      · rw [hfield]
        exact pyRemoveChnl_keys_nodup hkn.1 c et b
      · rw [hfield]
        intro x cmap hx
        by_cases hxc : x = c
        · rw [hxc, pyRemoveChnl_lookup_self hkn.1] at hx
          by_cases he : (pyRemoveIdx ((alookup st.byChnlAndType c).getD []) et b).isEmpty = true
          · rw [if_pos he] at hx; cases hx
          · rw [if_neg he] at hx
            cases hx
            exact pyRemoveIdx_keys_nodup hndc et b
        · rw [pyRemoveChnl_lookup_ne _ _ _ _ hxc] at hx
          exact hkn.2.1 x cmap hx
      · rw [hfield]
        exact pyRemoveIdx_keys_nodup hkn.2.2.1 o b
      · rw [hfield]
        exact pyRemoveIdx_keys_nodup hkn.2.2.2 mth b
      · rw [hfield]
        intro x cmap hx et' l hl b' hb'
        by_cases hxc : x = c
        · rw [hxc, pyRemoveChnl_lookup_self hkn.1] at hx
          by_cases he : (pyRemoveIdx ((alookup st.byChnlAndType c).getD []) et b).isEmpty = true
          · rw [if_pos he] at hx; cases hx
          · rw [if_neg he] at hx
            cases hx
            by_cases hyet : et' = et
            · rw [hyet, pyRemoveIdx_lookup_self hndc] at hl
              cases hAc : alookup st.byChnlAndType c with
              | none =>
                rw [hAc] at hl
                simp only [Option.getD_none, alookup] at hl
                cases hl
              | some m =>
                rw [hAc] at hl
                simp only [Option.getD_some] at hl
                cases hl0 : alookup m et with
                | none => rw [hl0] at hl; cases hl
                | some l0 =>
                  rw [hl0] at hl
                  have hl2 : (if (listRemovePy b l0).isEmpty = true then none
                      else some (listRemovePy b l0)) = some l := hl
                  by_cases hre : (listRemovePy b l0).isEmpty = true
                  · rw [if_pos hre] at hl2; cases hl2
                  · rw [if_neg hre] at hl2
                    cases hl2
                    have hb'l0 : b' ∈ l0 := (listRemovePy_sublist b l0).mem hb'
                    obtain ⟨h1, h2, h3⟩ := hpl.1 c m hAc et l0 hl0 b' hb'l0
                    exact ⟨h1.trans hxc.symm, h2.trans hyet.symm, h3⟩
            · rw [pyRemoveIdx_lookup_ne _ _ _ hyet] at hl
              cases hAc : alookup st.byChnlAndType c with
              | none => rw [hAc] at hl; simp [alookup] at hl
              | some m =>
                rw [hAc] at hl
                simp only [Option.getD_some] at hl
                obtain ⟨h1, h2, h3⟩ := hpl.1 c m hAc et' l hl b' hb'
                exact ⟨h1.trans hxc.symm, h2, h3⟩
        · rw [pyRemoveChnl_lookup_ne _ _ _ _ hxc] at hx
          exact hpl.1 x cmap hx et' l hl b' hb'
      · rw [hfield]
        intro o' l hl b' hb'
        by_cases ho : o' = o
        · rw [ho, pyRemoveIdx_lookup_self hkn.2.2.1] at hl
          cases hR : alookup st.byRelay o with
          | none => rw [hR] at hl; cases hl
          | some l0 =>
            rw [hR] at hl
            have hl2 : (if (listRemovePy b l0).isEmpty = true then none
                else some (listRemovePy b l0)) = some l := hl
            by_cases hre : (listRemovePy b l0).isEmpty = true
            · rw [if_pos hre] at hl2; cases hl2
            · rw [if_neg hre] at hl2
              cases hl2
              have hb'l0 : b' ∈ l0 := (listRemovePy_sublist b l0).mem hb'
              obtain ⟨fn', hfn'⟩ := hpl.2.1 o l0 hR b' hb'l0
              exact ⟨fn', ho ▸ hfn'⟩
        · rw [pyRemoveIdx_lookup_ne _ _ _ ho] at hl
          exact hpl.2.1 o' l hl b' hb'
      · rw [hfield]
        intro m' l hl b' hb'
        by_cases hm : m' = mth
        · rw [hm, pyRemoveIdx_lookup_self hkn.2.2.2] at hl
          cases hM : alookup st.byMethod mth with
          | none => rw [hM] at hl; cases hl
          | some l0 =>
            rw [hM] at hl
            have hl2 : (if (listRemovePy b l0).isEmpty = true then none
                else some (listRemovePy b l0)) = some l := hl
            by_cases hre : (listRemovePy b l0).isEmpty = true
            · rw [if_pos hre] at hl2; cases hl2
            · rw [if_neg hre] at hl2
              cases hl2
              have hb'l0 : b' ∈ l0 := (listRemovePy_sublist b l0).mem hb'
              obtain ⟨h1, h2⟩ := hpl.2.2 mth l0 hM b' hb'l0
              exact ⟨hm ▸ h1, hm ▸ h2⟩
        · rw [pyRemoveIdx_lookup_ne _ _ _ hm] at hl
          exact hpl.2.2 m' l hl b' hb'
      · -- Coherent
        intro b'' o'' fn'' hb''
        have hold := hco b'' o'' fn'' hb''
        rw [hLc, hLr, hLm]
        by_cases hpe : Binding.pyEq b'' b = true
        · obtain ⟨h1, h2, h3, h4⟩ := Binding.pyEq_fields hpe
          have hcc : b''.channel = c ∧ b''.event_type = et := ⟨h3.trans hc.symm, h2.trans het.symm⟩
          have hoo : o'' = o := by
            rw [h1, hbfn] at hb''
            cases hb''
            rfl
          have hmm : b''.method = mth := h1.trans hmth.symm
          rw [if_pos hcc, if_pos hoo, if_pos hmm]
          have hn1 : b'' ∉ listRemovePy b (chnlLeaf st c et) :=
            not_mem_listRemovePy_of_pyEq hpe (chnlLeaf_pairwise hpy c et)
          have hn2 : b'' ∉ listRemovePy b (relayLeaf st o) :=
            not_mem_listRemovePy_of_pyEq hpe (relayLeaf_pairwise hpy o)
          have hn3 : b'' ∉ listRemovePy b (methodLeaf st mth) :=
            not_mem_listRemovePy_of_pyEq hpe (methodLeaf_pairwise hpy mth)
          constructor
          · exact ⟨fun hmem => absurd hmem hn1, fun hmem => absurd hmem hn2⟩
          · exact ⟨fun hmem => absurd hmem hn2, fun hmem => absurd hmem hn3⟩
        · have hpe' : Binding.pyEq b'' b = false := Bool.not_eq_true _ ▸ hpe
          have hmc : (b'' ∈ if b''.channel = c ∧ b''.event_type = et then
              listRemovePy b (chnlLeaf st c et) else chnlLeaf st b''.channel b''.event_type) ↔
              b'' ∈ chnlLeaf st b''.channel b''.event_type := by
            by_cases h1 : b''.channel = c ∧ b''.event_type = et
            · rw [if_pos h1, mem_listRemovePy_of_pyEq_false hpe', h1.1, h1.2]
            · rw [if_neg h1]
          have hmr : (b'' ∈ if o'' = o then listRemovePy b (relayLeaf st o)
              else relayLeaf st o'') ↔ b'' ∈ relayLeaf st o'' := by
            by_cases h2 : o'' = o
            · rw [if_pos h2, mem_listRemovePy_of_pyEq_false hpe', h2]
            · rw [if_neg h2]
          have hmm2 : (b'' ∈ if b''.method = mth then listRemovePy b (methodLeaf st mth)
              else methodLeaf st b''.method) ↔ b'' ∈ methodLeaf st b''.method := by
            by_cases h3 : b''.method = mth
            · rw [if_pos h3, mem_listRemovePy_of_pyEq_false hpe', h3]
            · rw [if_neg h3]
          exact ⟨hmc.trans (hold.1.trans hmr.symm), hmr.trans (hold.2.trans hmm2.symm)⟩
      · rw [hfield]
        intro x cmap hx et' l hl
        by_cases hxc : x = c
        · rw [hxc, pyRemoveChnl_lookup_self hkn.1] at hx
          by_cases he : (pyRemoveIdx ((alookup st.byChnlAndType c).getD []) et b).isEmpty = true
          · rw [if_pos he] at hx; cases hx
          · rw [if_neg he] at hx
            cases hx
            by_cases hyet : et' = et
            · rw [hyet, pyRemoveIdx_lookup_self hndc] at hl
              cases hAc : alookup st.byChnlAndType c with
              | none =>
                rw [hAc] at hl
                simp only [Option.getD_none, alookup] at hl
                cases hl
              | some m =>
                rw [hAc] at hl
                simp only [Option.getD_some] at hl
                cases hl0 : alookup m et with
                | none => rw [hl0] at hl; cases hl
                | some l0 =>
                  rw [hl0] at hl
                  have hl2 : (if (listRemovePy b l0).isEmpty = true then none
                      else some (listRemovePy b l0)) = some l := hl
                  by_cases hre : (listRemovePy b l0).isEmpty = true
                  · rw [if_pos hre] at hl2; cases hl2
                  · rw [if_neg hre] at hl2
                    cases hl2
                    exact (hpy.1 c m hAc et l0 hl0).sublist (listRemovePy_sublist b l0)
            · rw [pyRemoveIdx_lookup_ne _ _ _ hyet] at hl
              cases hAc : alookup st.byChnlAndType c with
              | none => rw [hAc] at hl; simp [alookup] at hl
              | some m =>
                rw [hAc] at hl
                simp only [Option.getD_some] at hl
                exact hpy.1 c m hAc et' l hl
        · rw [pyRemoveChnl_lookup_ne _ _ _ _ hxc] at hx
          exact hpy.1 x cmap hx et' l hl
      · rw [hfield]
        intro o' l hl
        by_cases ho : o' = o
        · rw [ho, pyRemoveIdx_lookup_self hkn.2.2.1] at hl
          cases hR : alookup st.byRelay o with
          | none => rw [hR] at hl; cases hl
          | some l0 =>
            rw [hR] at hl
            have hl2 : (if (listRemovePy b l0).isEmpty = true then none
                else some (listRemovePy b l0)) = some l := hl
            by_cases hre : (listRemovePy b l0).isEmpty = true
            · rw [if_pos hre] at hl2; cases hl2
            · rw [if_neg hre] at hl2
              cases hl2
              exact (hpy.2.1 o l0 hR).sublist (listRemovePy_sublist b l0)
        · rw [pyRemoveIdx_lookup_ne _ _ _ ho] at hl
          exact hpy.2.1 o' l hl
      · rw [hfield]
        intro m' l hl
        by_cases hm : m' = mth
        · rw [hm, pyRemoveIdx_lookup_self hkn.2.2.2] at hl
          cases hM : alookup st.byMethod mth with
          | none => rw [hM] at hl; cases hl
          | some l0 =>
            rw [hM] at hl
            have hl2 : (if (listRemovePy b l0).isEmpty = true then none
                else some (listRemovePy b l0)) = some l := hl
            by_cases hre : (listRemovePy b l0).isEmpty = true
            · rw [if_pos hre] at hl2; cases hl2
            · rw [if_neg hre] at hl2
              cases hl2
              exact (hpy.2.2 mth l0 hM).sublist (listRemovePy_sublist b l0)
        · rw [pyRemoveIdx_lookup_ne _ _ _ hm] at hl
          exact hpy.2.2 m' l hl

end RelayModel

namespace RelayModel

theorem remove_preserves_noEmpty {st : Registry} (hkn : keysNodup st) (hne : NoEmpty st)
    (b? : Option Binding) : NoEmpty (Bindings.remove st b?).1 := by
  cases b? with
  | none => rw [Bindings.remove_none]; exact hne
  | some b =>
    cases hdata : Bindings._get_binding_data b with
    | error e =>
      rw [Bindings.remove_err hdata]
      exact hne
    | ok data =>
      obtain ⟨c, et, mth, o⟩ := data
      have hndc : (((alookup st.byChnlAndType c).getD []).map Prod.fst).Nodup := by
        cases hAc : alookup st.byChnlAndType c with
        | none => simp
        | some m => exact hkn.2.1 c m hAc
      have hfield := Bindings.remove_spec st b hdata
      refine ⟨?_, ?_, ?_⟩
      · rw [hfield]
        intro x cmap hx
        by_cases hxc : x = c
        · rw [hxc, pyRemoveChnl_lookup_self hkn.1] at hx
          by_cases he : (pyRemoveIdx ((alookup st.byChnlAndType c).getD []) et b).isEmpty = true
          · rw [if_pos he] at hx; cases hx
          · rw [if_neg he] at hx
            cases hx
            refine ⟨by simpa using he, ?_⟩
            intro y l hl
            by_cases hyet : y = et
            · rw [hyet, pyRemoveIdx_lookup_self hndc] at hl
              cases hAc : alookup ((alookup st.byChnlAndType c).getD []) et with
              | none => rw [hAc] at hl; cases hl
              | some l0 =>
                rw [hAc] at hl
                have hl2 : (if (listRemovePy b l0).isEmpty = true then none
                    else some (listRemovePy b l0)) = some l := hl
                by_cases hre : (listRemovePy b l0).isEmpty = true
                · rw [if_pos hre] at hl2; cases hl2
                · rw [if_neg hre] at hl2
                  cases hl2
                  exact fun hn => hre (by rw [hn]; rfl)
            · rw [pyRemoveIdx_lookup_ne _ _ _ hyet] at hl
              cases hAc : alookup st.byChnlAndType c with
              | none => rw [hAc] at hl; simp [alookup] at hl
              | some m =>
                rw [hAc] at hl
                simp only [Option.getD_some] at hl
                exact (hne.1 c m hAc).2 y l hl
        · rw [pyRemoveChnl_lookup_ne _ _ _ _ hxc] at hx
          exact hne.1 x cmap hx
      · rw [hfield]
        intro o' l hl
        by_cases ho : o' = o
        · rw [ho, pyRemoveIdx_lookup_self hkn.2.2.1] at hl
          cases hR : alookup st.byRelay o with
          | none => rw [hR] at hl; cases hl
          | some l0 =>
            rw [hR] at hl
            have hl2 : (if (listRemovePy b l0).isEmpty = true then none
                else some (listRemovePy b l0)) = some l := hl
            by_cases hre : (listRemovePy b l0).isEmpty = true
            · rw [if_pos hre] at hl2; cases hl2
            · rw [if_neg hre] at hl2
              cases hl2
              exact fun hn => hre (by rw [hn]; rfl)
        · rw [pyRemoveIdx_lookup_ne _ _ _ ho] at hl
          exact hne.2.1 o' l hl
      · rw [hfield]
        intro m' l hl
        by_cases hm : m' = mth
        · rw [hm, pyRemoveIdx_lookup_self hkn.2.2.2] at hl
          cases hM : alookup st.byMethod mth with
          | none => rw [hM] at hl; cases hl
          | some l0 =>
            rw [hM] at hl
            have hl2 : (if (listRemovePy b l0).isEmpty = true then none
                else some (listRemovePy b l0)) = some l := hl
            by_cases hre : (listRemovePy b l0).isEmpty = true
            · rw [if_pos hre] at hl2; cases hl2
            · rw [if_neg hre] at hl2
              cases hl2
              exact fun hn => hre (by rw [hn]; rfl)
        · rw [pyRemoveIdx_lookup_ne _ _ _ hm] at hl
          exact hne.2.2 m' l hl

end RelayModel

namespace RelayModel

/-! ### `remove_relay`, `clear` and the flat getters preserve the invariants -/

theorem inv_empty : Inv emptyRegistry := by
  refine ⟨⟨?_, ?_, ?_, ?_⟩, ⟨?_, ?_, ?_⟩, ?_, ⟨?_, ?_, ?_⟩⟩ <;>
    simp [emptyRegistry, alookup, chnlLeaf, relayLeaf, methodLeaf, Coherent]

theorem noEmpty_empty : NoEmpty emptyRegistry := by
  refine ⟨?_, ?_, ?_⟩ <;> intro a l hl <;> simp [emptyRegistry, alookup] at hl

theorem removeRelayLoop_preserves (r : OwnerRef) :
    ∀ (fuel i : Nat) (st : Registry), Inv st →
      Inv (Bindings.removeRelayLoop r fuel i st).1 ∧
      (NoEmpty st → NoEmpty (Bindings.removeRelayLoop r fuel i st).1) := by
  intro fuel
  induction fuel with
  | zero => intro i st h; exact ⟨h, fun hn => hn⟩
  | succ fuel ih =>
    intro i st h
    simp only [Bindings.removeRelayLoop]
    by_cases hlt : i < ((alookup st.byRelay r).getD []).length
    · rw [dif_pos hlt]
      have h1 := remove_preserves_inv h
        (some (((alookup st.byRelay r).getD []).get ⟨i, hlt⟩))
      have h2 := fun hn => remove_preserves_noEmpty h.1 hn
        (some (((alookup st.byRelay r).getD []).get ⟨i, hlt⟩))
      cases hrem : Bindings.remove st (some (((alookup st.byRelay r).getD []).get ⟨i, hlt⟩)) with
      | mk st1 e? =>
        rw [hrem] at h1 h2
        cases e? with
        | some e => exact ⟨h1, h2⟩
        | none =>
          have := ih (i + 1) st1 h1
          exact ⟨this.1, fun hn => this.2 (h2 hn)⟩
    · rw [dif_neg hlt]
      exact ⟨h, fun hn => hn⟩

theorem remove_relay_preserves {st : Registry} (hinv : Inv st) (r? : Option OwnerRef) :
    Inv (Bindings.remove_relay st r?).1 ∧
      (NoEmpty st → NoEmpty (Bindings.remove_relay st r?).1) := by
  cases r? with
  | none => exact ⟨hinv, fun hn => hn⟩
  | some r =>
    simp only [Bindings.remove_relay]
    by_cases hs : (alookup st.byRelay r).isSome = true
    · rw [if_pos hs]
      exact removeRelayLoop_preserves r _ 0 st hinv
    · rw [if_neg hs]
      exact ⟨hinv, fun hn => hn⟩

theorem clear_preserves (st : Registry) : Inv (Bindings.clear st) ∧ NoEmpty (Bindings.clear st) :=
  ⟨inv_empty, noEmpty_empty⟩

theorem get_by_relay_preserves {st : Registry} (hinv : Inv st) (r : OwnerRef) (f : BFilter) :
    Inv (Bindings.get_by_relay st r f).2 := by
  obtain ⟨hkn, hpl, hco, hpy⟩ := hinv
  have hfld : (Bindings.get_by_relay st r f).2 =
      { st with byRelay := aset st.byRelay r ((alookup st.byRelay r).getD []) } := by
    unfold Bindings.get_by_relay
    simp only [agetCreate_snd_eq]
  rw [hfld]
  have hleaf : ∀ o', relayLeaf
      { st with byRelay := aset st.byRelay r ((alookup st.byRelay r).getD []) } o' =
      relayLeaf st o' := by
    intro o'
    unfold relayLeaf
    by_cases ho : o' = r
    · rw [ho]
      simp only
      rw [alookup_aset_self]
      rfl
    · simp only
      rw [alookup_aset_ne _ _ _ ho]
  refine ⟨⟨hkn.1, hkn.2.1, nodup_keys_aset hkn.2.2.1 r _, hkn.2.2.2⟩,
    ⟨hpl.1, ?_, hpl.2.2⟩, ?_, ⟨hpy.1, ?_, hpy.2.2⟩⟩
  · intro o' l hl b' hb'
    by_cases ho : o' = r
    · rw [ho, alookup_aset_self] at hl
      cases hl
      obtain ⟨l0, hl0, hbl0⟩ := mem_getD_alookup hb'
      exact (ho ▸ hpl.2.1 r l0 hl0 b' hbl0 : _)
    · rw [alookup_aset_ne _ _ _ ho] at hl
      exact hpl.2.1 o' l hl b' hb'
  · intro b'' o'' fn'' hb''
    have hold := hco b'' o'' fn'' hb''
    have hch : chnlLeaf { st with byRelay := aset st.byRelay r ((alookup st.byRelay r).getD []) }
        b''.channel b''.event_type = chnlLeaf st b''.channel b''.event_type := rfl
    have hmm : methodLeaf { st with byRelay := aset st.byRelay r ((alookup st.byRelay r).getD []) }
        b''.method = methodLeaf st b''.method := rfl
    rw [hch, hmm, hleaf o'']
    exact hold
  · intro o' l hl
    by_cases ho : o' = r
    · rw [ho, alookup_aset_self] at hl
      cases hl
      cases hl0 : alookup st.byRelay r with
      | none => simp
      | some l0 =>
        simp only [Option.getD_some]
        exact hpy.2.1 r l0 hl0
    · rw [alookup_aset_ne _ _ _ ho] at hl
      exact hpy.2.1 o' l hl

theorem get_by_method_preserves {st : Registry} (hinv : Inv st) (m : PyCallable) (f : BFilter) :
    Inv (Bindings.get_by_method st m f).2 := by
  obtain ⟨hkn, hpl, hco, hpy⟩ := hinv
  have hfld : (Bindings.get_by_method st m f).2 =
      { st with byMethod := aset st.byMethod m ((alookup st.byMethod m).getD []) } := by
    unfold Bindings.get_by_method
    simp only [agetCreate_snd_eq]
  rw [hfld]
  have hleaf : ∀ m', methodLeaf
      { st with byMethod := aset st.byMethod m ((alookup st.byMethod m).getD []) } m' =
      methodLeaf st m' := by
    intro m'
    unfold methodLeaf
    by_cases hm : m' = m
    · rw [hm]
      simp only
      rw [alookup_aset_self]
      rfl
    · simp only
      rw [alookup_aset_ne _ _ _ hm]
  refine ⟨⟨hkn.1, hkn.2.1, hkn.2.2.1, nodup_keys_aset hkn.2.2.2 m _⟩,
    ⟨hpl.1, hpl.2.1, ?_⟩, ?_, ⟨hpy.1, hpy.2.1, ?_⟩⟩
  · intro m' l hl b' hb'
    by_cases hm : m' = m
    · rw [hm, alookup_aset_self] at hl
      cases hl
      obtain ⟨l0, hl0, hbl0⟩ := mem_getD_alookup hb'
      exact (hm ▸ hpl.2.2 m l0 hl0 b' hbl0 : _)
    · rw [alookup_aset_ne _ _ _ hm] at hl
      exact hpl.2.2 m' l hl b' hb'
  · intro b'' o'' fn'' hb''
    have hold := hco b'' o'' fn'' hb''
    have hch : chnlLeaf { st with byMethod := aset st.byMethod m ((alookup st.byMethod m).getD []) }
        b''.channel b''.event_type = chnlLeaf st b''.channel b''.event_type := rfl
    have hrr : relayLeaf { st with byMethod := aset st.byMethod m ((alookup st.byMethod m).getD []) }
        o'' = relayLeaf st o'' := rfl
    rw [hch, hrr, hleaf b''.method]
    exact hold
  · intro m' l hl
    by_cases hm : m' = m
    · rw [hm, alookup_aset_self] at hl
      cases hl
      cases hl0 : alookup st.byMethod m with
      | none => simp
      | some l0 =>
        simp only [Option.getD_some]
        exact hpy.2.2 m l0 hl0
    · rw [alookup_aset_ne _ _ _ hm] at hl
      exact hpy.2.2 m' l hl

end RelayModel

namespace RelayModel

/-! ### `get_by_event` preserves the coherence invariant (the `defaultdict`
reads only refresh or create channel / event-type entries, never move a
binding) -/

theorem inv_chnl_refresh {st : Registry} (hinv : Inv st) (c : String)
    {CM : List (String × List Binding)}
    (hkeys : (CM.map Prod.fst).Nodup)
    (hlk : ∀ et, alookup CM et = alookup ((alookup st.byChnlAndType c).getD []) et ∨
      alookup CM et = some ((alookup ((alookup st.byChnlAndType c).getD []) et).getD [])) :
    Inv { st with byChnlAndType := aset st.byChnlAndType c CM } := by
  obtain ⟨hkn, hpl, hco, hpy⟩ := hinv
  have hcm0 : ∀ et l, alookup ((alookup st.byChnlAndType c).getD []) et = some l →
      ∃ cmap, alookup st.byChnlAndType c = some cmap ∧ alookup cmap et = some l := by
    intro et l hl
    cases hc : alookup st.byChnlAndType c with
    | none =>
      rw [hc, Option.getD_none] at hl
      exact absurd hl (by simp [alookup])
    | some cmap =>
      rw [hc, Option.getD_some] at hl
      exact ⟨cmap, rfl, hl⟩
  have hch : ∀ x y, chnlLeaf { st with byChnlAndType := aset st.byChnlAndType c CM } x y =
      chnlLeaf st x y := by
    intro x y
    by_cases hx : x = c
    · subst hx
      have h1 : chnlLeaf st x y =
          (alookup ((alookup st.byChnlAndType x).getD []) y).getD [] := by
        unfold chnlLeaf
        cases hc : alookup st.byChnlAndType x with
        | none => simp [alookup]
        | some cmap => simp
      have h2 : chnlLeaf { st with byChnlAndType := aset st.byChnlAndType x CM } x y =
          ((alookup (aset st.byChnlAndType x CM) x).bind fun cmap => alookup cmap y).getD [] :=
        rfl
      rw [h1, h2, alookup_aset_self]
      show (alookup CM y).getD [] = _
      cases hlk y with
      | inl h => rw [h]
      | inr h => rw [h]; simp
    · have h2 : chnlLeaf { st with byChnlAndType := aset st.byChnlAndType c CM } x y =
          ((alookup (aset st.byChnlAndType c CM) x).bind fun cmap => alookup cmap y).getD [] :=
        rfl
      rw [h2, alookup_aset_ne _ _ _ hx]
      rfl
  refine ⟨⟨nodup_keys_aset hkn.1 c CM, ?_, hkn.2.2.1, hkn.2.2.2⟩,
    ⟨?_, hpl.2.1, hpl.2.2⟩, ?_, ⟨?_, hpy.2.1, hpy.2.2⟩⟩
  · intro c' cmap hcm
    by_cases hc : c' = c
    · rw [hc, alookup_aset_self] at hcm
      cases hcm
      exact hkeys
    · rw [alookup_aset_ne _ _ _ hc] at hcm
      exact hkn.2.1 c' cmap hcm
  · intro c' cmap hcm et l hl b hb
    by_cases hc : c' = c
    · subst hc
      rw [alookup_aset_self] at hcm
      cases hcm
      cases hlk et with
      | inl h =>
        rw [h] at hl
        obtain ⟨cmap1, hc1, hl1⟩ := hcm0 et l hl
        exact hpl.1 c' cmap1 hc1 et l hl1 b hb
      | inr h =>
        rw [h] at hl
        cases hl
        obtain ⟨l0, hl0, hb0⟩ := mem_getD_alookup hb
        obtain ⟨cmap1, hc1, hl1⟩ := hcm0 et l0 hl0
        exact hpl.1 c' cmap1 hc1 et l0 hl1 b hb0
    · rw [alookup_aset_ne _ _ _ hc] at hcm
      exact hpl.1 c' cmap hcm et l hl b hb
  · intro b o fn hm
    have hold := hco b o fn hm
    have h1 : relayLeaf { st with byChnlAndType := aset st.byChnlAndType c CM } o =
        relayLeaf st o := rfl
    have h2 : methodLeaf { st with byChnlAndType := aset st.byChnlAndType c CM } b.method =
        methodLeaf st b.method := rfl
    rw [hch b.channel b.event_type, h1, h2]
    exact hold
  · intro c' cmap hcm et l hl
    by_cases hc : c' = c
    · subst hc
      rw [alookup_aset_self] at hcm
      cases hcm
      cases hlk et with
      | inl h =>
        rw [h] at hl
        obtain ⟨cmap1, hc1, hl1⟩ := hcm0 et l hl
        exact hpy.1 c' cmap1 hc1 et l hl1
      | inr h =>
        rw [h] at hl
        cases hl
        cases hl0 : alookup ((alookup st.byChnlAndType c').getD []) et with
        | none => simp
        | some l0 =>
          simp only [Option.getD_some]
          obtain ⟨cmap1, hc1, hl1⟩ := hcm0 et l0 hl0
          exact hpy.1 c' cmap1 hc1 et l0 hl1
    · rw [alookup_aset_ne _ _ _ hc] at hcm
      exact hpy.1 c' cmap hcm et l hl

theorem retrieveChannelLoop_preserves_inv
    (recur : Registry → String → String → List Binding × Registry × Option PyErr)
    (hrec : ∀ st c e, Inv st → Inv (recur st c e).2.1) (pat et : String) :
    ∀ (keys : List String) (st : Registry), Inv st →
      Inv (Bindings.retrieveChannelLoop recur pat et keys st).2.1 := by
  intro keys
  induction keys with
  | nil => intro st h; exact h
  | cons ch rest ihk =>
    intro st h
    simp only [Bindings.retrieveChannelLoop]
    by_cases hm : matchesPatternS ch pat = true
    · rw [if_pos hm]
      have h1 := hrec st ch et h
      cases hr : recur st ch et with
      | mk bs p =>
        rw [hr] at h1
        cases p with
        | mk st1 e? =>
          cases e? with
          | some e => exact h1
          | none => exact ihk st1 h1
    · rw [if_neg hm]
      exact ihk st h

theorem retrieveEventTypeLoop_preserves_inv
    (recur : Registry → String → String → List Binding × Registry × Option PyErr)
    (hrec : ∀ st c e, Inv st → Inv (recur st c e).2.1) (channel pat : String) :
    ∀ (keys : List String) (st : Registry), Inv st →
      Inv (Bindings.retrieveEventTypeLoop recur channel pat keys st).2.1 := by
  intro keys
  induction keys with
  | nil => intro st h; exact h
  | cons et rest ihk =>
    intro st h
    simp only [Bindings.retrieveEventTypeLoop]
    by_cases hm : matchesPatternS et pat = true
    · rw [if_pos hm]
      have h1 := hrec st channel et h
      cases hr : recur st channel et with
      | mk bs p =>
        rw [hr] at h1
        cases p with
        | mk st1 e? =>
          cases e? with
          | some e => exact h1
          | none => exact ihk st1 h1
    · rw [if_neg hm]
      exact ihk st h

theorem retrieveByEvent_preserves_inv :
    ∀ (fuel : Nat) (st : Registry) (c et : String), Inv st →
      Inv (Bindings.retrieveByEvent fuel st c et).2.1 := by
  intro fuel
  induction fuel with
  | zero => intro st c et h; exact h
  | succ fuel ih =>
    intro st c et h
    simp only [Bindings.retrieveByEvent]
    by_cases h1 : ¬ containsStar c = true ∧ ¬ containsStar et = true
    · rw [if_pos h1]
      have hreg : aset (agetCreate st.byChnlAndType c []).2 c
            (agetCreate (agetCreate st.byChnlAndType c []).1 et []).2 =
          aset st.byChnlAndType c
            (aset ((alookup st.byChnlAndType c).getD []) et
              ((alookup ((alookup st.byChnlAndType c).getD []) et).getD [])) := by
        rw [aset_agetCreate_snd, agetCreate_fst, agetCreate_snd_eq]
      rw [hreg]
      apply inv_chnl_refresh h c
      · apply nodup_keys_aset
        cases hc : alookup st.byChnlAndType c with
        | none => simp
        | some cmap =>
          simp only [Option.getD_some]
          exact h.1.2.1 c cmap hc
      · intro y
        by_cases hy : y = et
        · rw [hy, alookup_aset_self]
          exact Or.inr rfl
        · rw [alookup_aset_ne _ _ _ hy]
          exact Or.inl rfl
    · rw [if_neg h1]
      by_cases h2 : containsStar c = true
      · rw [if_pos h2]
        exact retrieveChannelLoop_preserves_inv _ (fun st' c' e' => ih st' c' e') c et _ st h
      · rw [if_neg h2]
        apply retrieveEventTypeLoop_preserves_inv _ (fun st' c' e' => ih st' c' e') c et
        have hreg2 : (agetCreate st.byChnlAndType c []).2 =
            aset st.byChnlAndType c ((alookup st.byChnlAndType c).getD []) :=
          agetCreate_snd_eq _ _ _
        rw [hreg2]
        apply inv_chnl_refresh h c
        · cases hc : alookup st.byChnlAndType c with
          | none => simp
          | some cmap =>
            simp only [Option.getD_some]
            exact h.1.2.1 c cmap hc
        · intro y
          exact Or.inl rfl

theorem get_by_event_preserves_inv {st : Registry} (hinv : Inv st)
    (c et : String) (f : BFilter) : Inv (Bindings.get_by_event st c et f).2.1 := by
  unfold Bindings.get_by_event
  have h1 := retrieveByEvent_preserves_inv Bindings.recursionLimit st c et hinv
  cases hr : Bindings.retrieveByEvent Bindings.recursionLimit st c et with
  | mk bs p =>
    rw [hr] at h1
    cases p with
    | mk st1 e? =>
      cases e? with
      | some e => exact h1
      | none => exact h1

end RelayModel

namespace RelayModel

/-! ### Running operation sequences from the empty registry -/

theorem runOp_preserves_inv {st : Registry} (hinv : Inv st) (op : Op) :
    Inv (runOp st op) := by
  cases op with
  | add b => exact add_preserves_inv hinv b
  | remove b? => exact remove_preserves_inv hinv b?
  | remove_relay r? => exact (remove_relay_preserves hinv r?).1
  | clear => exact (clear_preserves st).1
  | get_by_event c et f => exact get_by_event_preserves_inv hinv c et f
  | get_by_relay r f => exact get_by_relay_preserves hinv r f
  | get_by_method m f => exact get_by_method_preserves hinv m f

theorem runOp_mutation_preserves {st : Registry} (hinv : Inv st) (hne : NoEmpty st)
    (op : Op) (hm : opIsMutation op = true) :
    Inv (runOp st op) ∧ NoEmpty (runOp st op) := by
  cases op with
  | add b => exact ⟨add_preserves_inv hinv b, add_preserves_noEmpty hne b⟩
  | remove b? =>
    exact ⟨remove_preserves_inv hinv b?, remove_preserves_noEmpty hinv.1 hne b?⟩
  | remove_relay r? =>
    exact ⟨(remove_relay_preserves hinv r?).1, (remove_relay_preserves hinv r?).2 hne⟩
  | clear => exact clear_preserves st
  | get_by_event c et f => cases hm
  | get_by_relay r f => cases hm
  | get_by_method m f => cases hm

theorem foldl_runOp_inv (ops : List Op) :
    ∀ (st : Registry), Inv st → Inv (ops.foldl runOp st) := by
  induction ops with
  | nil => intro st h; exact h
  | cons op rest ih => intro st h; exact ih (runOp st op) (runOp_preserves_inv h op)

theorem runOps_inv (ops : List Op) : Inv (runOps ops) :=
  foldl_runOp_inv ops emptyRegistry inv_empty

theorem foldl_runOp_noEmpty (ops : List Op) (hall : ∀ op ∈ ops, opIsMutation op = true) :
    ∀ (st : Registry), Inv st → NoEmpty st → NoEmpty (ops.foldl runOp st) := by
  induction ops with
  | nil => intro st _ hne; exact hne
  | cons op rest ih =>
    intro st hinv hne
    have hop := hall op (List.mem_cons_self op rest)
    have h1 := runOp_mutation_preserves hinv hne op hop
    exact ih (fun o ho => hall o (List.mem_cons_of_mem op ho)) (runOp st op) h1.1 h1.2

/-- A binding stored anywhere in the channel/event-type index sits, by
`Placed`, under its own keys. -/
theorem inChnl_mem_leaf {st : Registry} (hpl : Placed st) {b : Binding}
    (h : InChnlIdx st b) : b ∈ chnlLeaf st b.channel b.event_type ∧
      ∃ o fn, b.method = .bound o fn := by
  obtain ⟨c, cmap, hc, et, l, hl, hb⟩ := h
  obtain ⟨hch, het, hbound⟩ := hpl.1 c cmap hc et l hl b hb
  constructor
  · unfold chnlLeaf
    rw [hch, het, hc]
    show b ∈ (alookup cmap et).getD []
    rw [hl]
    simpa using hb
  · exact hbound

/-- A binding stored anywhere in the owner index is stored under its own
owner, and owns a bound method. -/
theorem inRelay_mem_leaf {st : Registry} (hpl : Placed st) {b : Binding}
    (h : InRelayIdx st b) : ∃ o fn, b.method = .bound o fn ∧ b ∈ relayLeaf st o := by
  obtain ⟨o, l, hl, hb⟩ := h
  obtain ⟨fn, hm⟩ := hpl.2.1 o l hl b hb
  refine ⟨o, fn, hm, ?_⟩
  unfold relayLeaf
  rw [hl]
  simpa using hb

/-- A binding stored anywhere in the method index is stored under its own
method, which is bound. -/
theorem inMethod_mem_leaf {st : Registry} (hpl : Placed st) {b : Binding}
    (h : InMethodIdx st b) : b ∈ methodLeaf st b.method ∧
      ∃ o fn, b.method = .bound o fn := by
  obtain ⟨m, l, hl, hb⟩ := h
  obtain ⟨hm, o, fn, hbd⟩ := hpl.2.2 m l hl b hb
  constructor
  · unfold methodLeaf
    rw [hm, hl]
    simpa using hb
  · exact ⟨o, fn, hm ▸ hbd⟩

theorem mem_chnlLeaf_inChnl {st : Registry} {b : Binding}
    (h : b ∈ chnlLeaf st b.channel b.event_type) : InChnlIdx st b := by
  unfold chnlLeaf at h
  cases hc : alookup st.byChnlAndType b.channel with
  | none => rw [hc] at h; simp at h
  | some cmap =>
    rw [hc] at h
    have h2 : b ∈ (alookup cmap b.event_type).getD [] := h
    obtain ⟨l, hl, hb⟩ := mem_getD_alookup h2
    exact ⟨b.channel, cmap, hc, b.event_type, l, hl, hb⟩

theorem mem_relayLeaf_inRelay {st : Registry} {b : Binding} {o : OwnerRef}
    (h : b ∈ relayLeaf st o) : InRelayIdx st b := by
  obtain ⟨l, hl, hb⟩ := mem_getD_alookup h
  exact ⟨o, l, hl, hb⟩

theorem mem_methodLeaf_inMethod {st : Registry} {b : Binding}
    (h : b ∈ methodLeaf st b.method) : InMethodIdx st b := by
  obtain ⟨l, hl, hb⟩ := mem_getD_alookup h
  exact ⟨b.method, l, hl, hb⟩

/-- Under the preserved invariant, membership in one index is equivalent to
membership in each of the others. -/
theorem inv_tri {st : Registry} (hinv : Inv st) (b : Binding) :
    (InChnlIdx st b ↔ InRelayIdx st b) ∧ (InRelayIdx st b ↔ InMethodIdx st b) := by
  obtain ⟨hkn, hpl, hco, hpy⟩ := hinv
  constructor
  · constructor
    · intro h
      obtain ⟨hleaf, o, fn, hm⟩ := inChnl_mem_leaf hpl h
      exact mem_relayLeaf_inRelay (((hco b o fn hm).1).mp hleaf)
    · intro h
      obtain ⟨o, fn, hm, hleaf⟩ := inRelay_mem_leaf hpl h
      exact mem_chnlLeaf_inChnl (((hco b o fn hm).1).mpr hleaf)
  · constructor
    · intro h
      obtain ⟨o, fn, hm, hleaf⟩ := inRelay_mem_leaf hpl h
      exact mem_methodLeaf_inMethod (((hco b o fn hm).2).mp hleaf)
    · intro h
      obtain ⟨hleaf, o, fn, hm⟩ := inMethod_mem_leaf hpl h
      exact mem_relayLeaf_inRelay (((hco b o fn hm).2).mpr hleaf)

end RelayModel

namespace RelayModel

/-- **C4.** After any sequence of `add`, `remove`, `remove_relay`, `clear`,
`get_by_event`, `get_by_relay`, `get_by_method` operations run from the
empty registry, a binding present in one of the three indices is present in
all three; and after any sequence consisting solely of the four mutating
operations, no empty leaf collection persists (no channel key maps to an
empty event-type map, no event-type key to an empty binding list, no owner
or method key to an empty list).  The claim's further assertion that the
no-empty-leaf property survives the query operations too is refuted
separately: a query on an unknown key installs a dangling empty entry. -/
theorem C4_index_coherence :
    (∀ (ops : List Op) (b : Binding),
      (InChnlIdx (runOps ops) b ↔ InRelayIdx (runOps ops) b) ∧
      (InRelayIdx (runOps ops) b ↔ InMethodIdx (runOps ops) b)) ∧
    (∀ ops : List Op, (∀ op ∈ ops, opIsMutation op = true) → NoEmpty (runOps ops)) := by
  constructor
  · intro ops b
    exact inv_tri (runOps_inv ops) b
  · intro ops hall
    exact foldl_runOp_noEmpty ops hall emptyRegistry inv_empty noEmpty_empty

theorem C4_index_coherence_witness :
    ((InChnlIdx (runOps [Op.add exL1]) exL1 ↔ InRelayIdx (runOps [Op.add exL1]) exL1) ∧
      (InRelayIdx (runOps [Op.add exL1]) exL1 ↔ InMethodIdx (runOps [Op.add exL1]) exL1)) ∧
    NoEmpty (runOps [Op.add exL1]) :=
  ⟨C4_index_coherence.1 [Op.add exL1] exL1,
   C4_index_coherence.2 [Op.add exL1] (by decide)⟩

/-- **C4 counterexample.** `get_by_relay` on an owner with no bindings reads
the owner index through the `defaultdict`, installing an empty list under
that owner which the query never prunes: afterwards the owner key maps to
`[]`, so the no-empty-leaf property does not survive queries on unknown
keys. -/
theorem C4_counterexample :
    (runOps [Op.get_by_relay exR BFilter.bindingF]).byRelay = [(exR, [])] ∧
    ¬ NoEmpty (runOps [Op.get_by_relay exR BFilter.bindingF]) := by
  constructor
  · decide
  · intro hne
    exact hne.2.1 exR [] (by decide) rfl

end RelayModel

namespace RelayModel

/-- `add` is a complete no-op (state and result) when the binding is
already present, by `__eq__`, in all three leaves it targets. -/
theorem add_noop {st : Registry} {b : Binding} {c et : String} {mth : PyCallable}
    {o : OwnerRef}
    (hd : Bindings._get_binding_data b = .ok (c, et, mth, o))
    (hC : ∃ CM, alookup st.byChnlAndType c = some CM ∧
      ∃ L, alookup CM et = some L ∧ listMemPy b L = true)
    (hR : ∃ LR, alookup st.byRelay o = some LR ∧ listMemPy b LR = true)
    (hM : ∃ LM, alookup st.byMethod mth = some LM ∧ listMemPy b LM = true) :
    Bindings.add st b = (st, none) := by
  obtain ⟨CM, hCM, L, hL, hmem⟩ := hC
  obtain ⟨LR, hLR, hmemR⟩ := hR
  obtain ⟨LM, hLM, hmemM⟩ := hM
  rw [Bindings.add_spec st b hd]
  have hchnl : chnlLeaf st c et = L := by
    rw [chnlLeaf_eq, hCM]
    simp only [Option.getD_some]
    rw [hL]
    rfl
  have hrel : relayLeaf st o = LR := by
    unfold relayLeaf
    rw [hLR]
    rfl
  have hmet : methodLeaf st mth = LM := by
    unfold methodLeaf
    rw [hLM]
    rfl
  have hpi1 : pyInsert b (chnlLeaf st c et) = L := by
    rw [hchnl]
    unfold pyInsert
    rw [if_pos hmem]
  have hpi2 : pyInsert b (relayLeaf st o) = LR := by
    rw [hrel]
    unfold pyInsert
    rw [if_pos hmemR]
  have hpi3 : pyInsert b (methodLeaf st mth) = LM := by
    rw [hmet]
    unfold pyInsert
    rw [if_pos hmemM]
  rw [hpi1, hpi2, hpi3]
  have e1 : aset ((alookup st.byChnlAndType c).getD []) et L =
      (alookup st.byChnlAndType c).getD [] := by
    rw [hCM]
    simp only [Option.getD_some]
    exact aset_of_lookup_eq hL
  rw [e1]
  have e2 : aset st.byChnlAndType c ((alookup st.byChnlAndType c).getD []) =
      st.byChnlAndType := by
    rw [hCM]
    simp only [Option.getD_some]
    exact aset_of_lookup_eq hCM
  rw [e2, aset_of_lookup_eq hLR, aset_of_lookup_eq hLM]

/-- **C5 (amended).** `add`'s already-present guard is Python `in`, which on
pydantic models compares by structural equality (`__eq__`), not object
identity: after adding `b`, a further `add` of any binding `b'` with
identical field content — whether the same object or a distinct instance —
changes nothing (same registry, same result).  Idempotence on the same
object is the special case `b' = b`; the claim's assertion that a distinct
identical-content instance is inserted a second time is refuted by the
counterexample. -/
theorem C5_add_identity_check (st : Registry) (b b' : Binding)
    (h : Binding.pyEq b b' = true) :
    Bindings.add (Bindings.add st b).1 b' = Bindings.add st b := by
  obtain ⟨hm, he, hc, hr⟩ := Binding.pyEq_fields h
  cases hmth : b.method with
  | plainFn n =>
    have hd : Bindings._get_binding_data b = .error .valueError :=
      getBindingData_err (fun o fn hx => by rw [hmth] at hx; cases hx)
    have hd' : Bindings._get_binding_data b' = .error .valueError :=
      getBindingData_err (fun o fn hx => by rw [← hm, hmth] at hx; cases hx)
    rw [Bindings.add_err hd, Bindings.add_err hd']
  | otherCallable n =>
    have hd : Bindings._get_binding_data b = .error .valueError :=
      getBindingData_err (fun o fn hx => by rw [hmth] at hx; cases hx)
    have hd' : Bindings._get_binding_data b' = .error .valueError :=
      getBindingData_err (fun o fn hx => by rw [← hm, hmth] at hx; cases hx)
    rw [Bindings.add_err hd, Bindings.add_err hd']
  | bound o fn =>
    have hb' : b'.method = PyCallable.bound o fn := hm ▸ hmth
    have hd : Bindings._get_binding_data b = .ok (b.channel, b.event_type, b.method, o) :=
      getBindingData_of_bound hmth
    have hd' : Bindings._get_binding_data b' = .ok (b.channel, b.event_type, b.method, o) := by
      rw [hc, he, hm]
      exact getBindingData_of_bound hb'
    have h1 : (Bindings.add st b).1.byChnlAndType =
        aset st.byChnlAndType b.channel
          (aset ((alookup st.byChnlAndType b.channel).getD []) b.event_type
            (pyInsert b (chnlLeaf st b.channel b.event_type))) := by
      rw [Bindings.add_spec st b hd]
    have h2 : (Bindings.add st b).1.byRelay =
        aset st.byRelay o (pyInsert b (relayLeaf st o)) := by
      rw [Bindings.add_spec st b hd]
    have h3 : (Bindings.add st b).1.byMethod =
        aset st.byMethod b.method (pyInsert b (methodLeaf st b.method)) := by
      rw [Bindings.add_spec st b hd]
    have hnoop : Bindings.add (Bindings.add st b).1 b' = ((Bindings.add st b).1, none) := by
      apply add_noop hd'
      · refine ⟨aset ((alookup st.byChnlAndType b.channel).getD []) b.event_type
            (pyInsert b (chnlLeaf st b.channel b.event_type)), ?_,
          pyInsert b (chnlLeaf st b.channel b.event_type), ?_, ?_⟩
        · rw [h1, alookup_aset_self]
        · rw [alookup_aset_self]
        · rw [← listMemPy_congr h _]
          exact listMemPy_pyInsert b _
      · refine ⟨pyInsert b (relayLeaf st o), ?_, ?_⟩
        · rw [h2, alookup_aset_self]
        · rw [← listMemPy_congr h _]
          exact listMemPy_pyInsert b _
      · refine ⟨pyInsert b (methodLeaf st b.method), ?_, ?_⟩
        · rw [h3, alookup_aset_self]
        · rw [← listMemPy_congr h _]
          exact listMemPy_pyInsert b _
    rw [hnoop, Bindings.add_spec st b hd]

theorem C5_add_identity_check_witness :
    Binding.pyEq exB1 exB1dup = true ∧
    Bindings.add (Bindings.add emptyRegistry exB1).1 exB1dup =
      Bindings.add emptyRegistry exB1 :=
  ⟨by decide, C5_add_identity_check emptyRegistry exB1 exB1dup (by decide)⟩

/-- **C5 counterexample.** `exB1dup` is a distinct object (different
identity) with field content identical to `exB1`; re-adding it after `exB1`
inserts nothing — the owner index still holds exactly `[exB1]` — refuting
the claim that distinct identical-content instances get a second entry and
that the presence check is by object identity. -/
theorem C5_counterexample :
    Binding.pyEq exB1 exB1dup = true ∧ exB1 ≠ exB1dup ∧
    (Bindings.add (Bindings.add emptyRegistry exB1).1 exB1dup).1 =
      (Bindings.add emptyRegistry exB1).1 ∧
    (Bindings.add (Bindings.add emptyRegistry exB1).1 exB1dup).1.byRelay =
      [(exR, [exB1])] := by
  exact ⟨by decide, by decide, by decide, by decide⟩

end RelayModel

namespace RelayModel

/-! ### `remove` on an absent binding, and removal idempotence -/

theorem adel_append_any {α β : Type} [DecidableEq α] {m : List (α × β)} {k : α}
    (h : alookup m k = none) (v : β) : adel (m ++ [(k, v)]) k = m := by
  induction m with
  | nil => simp [adel]
  | cons kv rest ih =>
    rcases kv with ⟨k0, v0⟩
    simp only [alookup] at h
    by_cases h1 : k0 = k
    · rw [if_pos h1] at h; cases h
    · rw [if_neg h1] at h
      simp only [List.cons_append, adel, if_neg h1, List.append_eq]
      have h2 := ih h
      simp only [List.append_eq] at h2
      rw [h2]

theorem listMemPy_listRemovePy {b : Binding} {l : List Binding}
    (hpw : l.Pairwise fun a c => Binding.pyEq a c = false) :
    listMemPy b (listRemovePy b l) = false := by
  rw [listMemPy_eq_false_iff]
  intro x hx
  by_cases hxe : Binding.pyEq x b = true
  · exact absurd hx (not_mem_listRemovePy_of_pyEq hxe hpw)
  · rw [Bool.not_eq_true] at hxe
    exact hxe

theorem pyRemoveIdx_not_mem {κ : Type} [DecidableEq κ] {idx : List (κ × List Binding)}
    {k : κ} {b : Binding}
    (hmem : listMemPy b ((alookup idx k).getD []) = false)
    (hne : ∀ l, alookup idx k = some l → l ≠ []) :
    pyRemoveIdx idx k b = idx := by
  have hmem' : ¬ listMemPy b ((alookup idx k).getD []) = true := by
    rw [hmem]; exact Bool.false_ne_true
  simp only [pyRemoveIdx]
  rw [if_neg hmem']
  cases hl : alookup idx k with
  | none =>
    rw [if_pos (show ((none : Option (List Binding)).getD []).isEmpty = true from rfl)]
    exact adel_of_lookup_none hl
  | some l =>
    rw [if_neg (fun (hise : ((some l).getD ([] : List Binding)).isEmpty = true) =>
      hne l hl (List.isEmpty_iff.mp hise))]

theorem pyRemoveChnl_not_mem {outer : List (String × List (String × List Binding))}
    {c et : String} {b : Binding}
    (hmem : listMemPy b ((alookup ((alookup outer c).getD []) et).getD []) = false)
    (hne : ∀ cmap, alookup outer c = some cmap →
      cmap ≠ [] ∧ ∀ l, alookup cmap et = some l → l ≠ []) :
    pyRemoveChnl outer c et b = outer := by
  have hmem' : ¬ listMemPy b ((alookup ((alookup outer c).getD []) et).getD []) = true := by
    rw [hmem]; exact Bool.false_ne_true
  simp only [pyRemoveChnl]
  rw [if_neg hmem']
  cases hc : alookup outer c with
  | some cmap =>
    simp only [Option.getD_some]
    have hcm2 : (if ((alookup cmap et).getD []).isEmpty = true then adel cmap et else cmap)
        = cmap := by
      cases het : alookup cmap et with
      | none =>
        rw [if_pos (show ((none : Option (List Binding)).getD []).isEmpty = true from rfl)]
        exact adel_of_lookup_none het
      | some l =>
        rw [if_neg (fun (hise : ((some l).getD ([] : List Binding)).isEmpty = true) =>
          (hne cmap hc).2 l het (List.isEmpty_iff.mp hise))]
    rw [hcm2, aset_of_lookup_eq hc]
    rw [if_neg (fun hise => (hne cmap hc).1 (List.isEmpty_iff.mp hise))]
  | none =>
    have hinner :
        (if ((alookup ((none : Option (List (String × List Binding))).getD []) et).getD
              []).isEmpty = true
          then adel ((none : Option (List (String × List Binding))).getD []) et
          else (none : Option (List (String × List Binding))).getD []) =
        ([] : List (String × List Binding)) := rfl
    rw [hinner]
    rw [if_pos (show ([] : List (String × List Binding)).isEmpty = true from rfl)]
    rw [aset_of_lookup_none hc]
    exact adel_append_any hc []

/-- Removing a bound-method binding whose content matches nothing stored is
a complete no-op: the transient `defaultdict` channel entry is pruned before
`remove` returns. -/
theorem remove_not_present {st : Registry} (hinv : Inv st) (hne : NoEmpty st)
    {b : Binding} {o : OwnerRef} {fn : Nat} (hb : b.method = .bound o fn)
    (hmem : listMemPy b (chnlLeaf st b.channel b.event_type) = false) :
    Bindings.remove st (some b) = (st, none) := by
  obtain ⟨hkn, hpl, hco, hpy⟩ := hinv
  have hd := getBindingData_of_bound hb
  have hg := guards_agree hco hb
  have hmemR : listMemPy b (relayLeaf st o) = false := by rw [← hg.1]; exact hmem
  have hmemM : listMemPy b (methodLeaf st b.method) = false := by rw [← hg.2]; exact hmemR
  rw [chnlLeaf_eq] at hmem
  rw [Bindings.remove_spec st b hd]
  rw [pyRemoveChnl_not_mem hmem (fun cmap hc =>
    ⟨(hne.1 b.channel cmap hc).1, fun l hl => (hne.1 b.channel cmap hc).2 b.event_type l hl⟩)]
  rw [pyRemoveIdx_not_mem hmemR (fun l hl => hne.2.1 o l hl)]
  rw [pyRemoveIdx_not_mem hmemM (fun l hl => hne.2.2 b.method l hl)]

end RelayModel

namespace RelayModel

/-- **C6 (amended).** `remove(None)` is a no-op and returns no error;
`remove(b)` raises (`ValueError`) exactly when `b.method` is not a bound
method; on any coherent, empty-leaf-free registry, removing a bound-method
binding matched (by `__eq__`) by nothing stored leaves the state unchanged,
and removal is idempotent: a second `remove(b)` returns the same state and
result as the first.  The claim's "never raises" and "removing a binding
that was never added leaves the registry unchanged" are refuted by the
counterexample: a free-function binding raises, and removing a never-added
binding deletes a stored structurally-equal twin. -/
theorem C6_remove_idempotent_no_raise :
    (∀ st : Registry, Bindings.remove st none = (st, none)) ∧
    (∀ (st : Registry) (b : Binding),
      (Bindings.remove st (some b)).2 = none ↔ ∃ o fn, b.method = .bound o fn) ∧
    (∀ (st : Registry) (b : Binding) (o : OwnerRef) (fn : Nat),
      Inv st → NoEmpty st → b.method = .bound o fn →
      listMemPy b (chnlLeaf st b.channel b.event_type) = false →
      Bindings.remove st (some b) = (st, none)) ∧
    (∀ (st : Registry) (b : Binding), Inv st → NoEmpty st →
      Bindings.remove (Bindings.remove st (some b)).1 (some b) =
        Bindings.remove st (some b)) := by
  refine ⟨Bindings.remove_none, ?_, ?_, ?_⟩
  · intro st b
    constructor
    · intro h
      cases hmth : b.method with
      | bound o fn => exact ⟨o, fn, rfl⟩
      | plainFn n =>
        rw [Bindings.remove_err (getBindingData_err
          (fun o fn hx => by rw [hmth] at hx; cases hx))] at h
        cases h
      | otherCallable n =>
        rw [Bindings.remove_err (getBindingData_err
          (fun o fn hx => by rw [hmth] at hx; cases hx))] at h
        cases h
    · intro ⟨o, fn, hb⟩
      rw [Bindings.remove_spec st b (getBindingData_of_bound hb)]
  · intro st b o fn hinv hne hb hmem
    exact remove_not_present hinv hne hb hmem
  · intro st b hinv hne
    cases hmth : b.method with
    | plainFn n =>
      have hd : Bindings._get_binding_data b = .error .valueError :=
        getBindingData_err (fun o fn hx => by rw [hmth] at hx; cases hx)
      rw [Bindings.remove_err hd, Bindings.remove_err hd]
    | otherCallable n =>
      have hd : Bindings._get_binding_data b = .error .valueError :=
        getBindingData_err (fun o fn hx => by rw [hmth] at hx; cases hx)
      rw [Bindings.remove_err hd, Bindings.remove_err hd]
    | bound o fn =>
      have hd := getBindingData_of_bound hmth
      have hinv1 := remove_preserves_inv hinv (some b)
      have hne1 := remove_preserves_noEmpty hinv.1 hne (some b)
      have hleaf := (remove_leaves st b hd hinv.1).1 b.channel b.event_type
      rw [if_pos ⟨rfl, rfl⟩] at hleaf
      have hmem1 : listMemPy b
          (chnlLeaf (Bindings.remove st (some b)).1 b.channel b.event_type) = false := by
        rw [hleaf]
        exact listMemPy_listRemovePy (chnlLeaf_pairwise hinv.2.2.2 b.channel b.event_type)
      have hstep := remove_not_present hinv1 hne1 hmth hmem1
      rw [hstep, Bindings.remove_spec st b hd]

theorem C6_remove_idempotent_no_raise_witness :
    Bindings.remove emptyRegistry none = (emptyRegistry, none) ∧
    ((Bindings.remove emptyRegistry (some exB1)).2 = none ↔
      ∃ o fn, exB1.method = .bound o fn) ∧
    Bindings.remove exStEmit (some exB2) = (exStEmit, none) ∧
    Bindings.remove (Bindings.remove exStEmit (some exL1)).1 (some exL1) =
      Bindings.remove exStEmit (some exL1) := by
  have hinv : Inv exStEmit :=
    add_preserves_inv (add_preserves_inv (add_preserves_inv inv_empty exL1) exL2) exL3
  have hne : NoEmpty exStEmit :=
    add_preserves_noEmpty (add_preserves_noEmpty (add_preserves_noEmpty noEmpty_empty exL1)
      exL2) exL3
  exact ⟨C6_remove_idempotent_no_raise.1 emptyRegistry,
    C6_remove_idempotent_no_raise.2.1 emptyRegistry exB1,
    C6_remove_idempotent_no_raise.2.2.1 exStEmit exB2 exR 11 hinv hne rfl (by decide),
    C6_remove_idempotent_no_raise.2.2.2 exStEmit exL1 hinv hne⟩

/-- **C6 counterexample.** `remove` of a binding whose method is a free
function raises `ValueError` (so `remove` can raise), and `remove` of a
never-added binding `exB1dup` deletes the stored structurally-equal binding
`exB1`, changing the registry state. -/
theorem C6_counterexample :
    Bindings.remove emptyRegistry (some exBfn) = (emptyRegistry, some PyErr.valueError) ∧
    Binding.pyEq exB1dup exB1 = true ∧ exB1dup ≠ exB1 ∧
    (Bindings.remove (Bindings.add emptyRegistry exB1).1 (some exB1dup)).1 =
      emptyRegistry ∧
    (Bindings.add emptyRegistry exB1).1 ≠ emptyRegistry := by
  exact ⟨by decide, by decide, by decide, by decide, by decide⟩

end RelayModel

namespace RelayModel

/-- **C9 (amended).** `Bindings.add` succeeds (stores the binding, raises
nothing) exactly when the binding's method is a bound method — any owner,
whether or not its class derives from `Relay`, is accepted, because
`_get_binding_data` only reads `__self__` and never checks the owner's
class; a free function or other callable raises
`ValueError("Binding method must come from Relay.")` and leaves the
registry unchanged.  The claim's requirement that the owner be
Relay-derived is refuted by the counterexample. -/
theorem C9_add_owner_check (st : Registry) (b : Binding) :
    ((Bindings.add st b).2 = none ↔ ∃ o fn, b.method = .bound o fn) ∧
    (¬ (∃ o fn, b.method = .bound o fn) →
      Bindings.add st b = (st, some PyErr.valueError)) := by
  constructor
  · constructor
    · intro h
      cases hmth : b.method with
      | bound o fn => exact ⟨o, fn, rfl⟩
      | plainFn n =>
        rw [Bindings.add_err (getBindingData_err
          (fun o fn hx => by rw [hmth] at hx; cases hx))] at h
        cases h
      | otherCallable n =>
        rw [Bindings.add_err (getBindingData_err
          (fun o fn hx => by rw [hmth] at hx; cases hx))] at h
        cases h
    · intro ⟨o, fn, hb⟩
      rw [Bindings.add_spec st b (getBindingData_of_bound hb)]
  · intro h
    exact Bindings.add_err (getBindingData_err (fun o fn hx => h ⟨o, fn, hx⟩))

theorem C9_add_owner_check_witness :
    ((Bindings.add emptyRegistry exBfn).2 = none ↔
      ∃ o fn, exBfn.method = .bound o fn) ∧
    Bindings.add emptyRegistry exBfn = (emptyRegistry, some PyErr.valueError) :=
  ⟨(C9_add_owner_check emptyRegistry exBfn).1,
   (C9_add_owner_check emptyRegistry exBfn).2
     (fun h => by obtain ⟨o, fn, hx⟩ := h; simp [exBfn] at hx)⟩

/-- **C9 counterexample.** A binding bound to an owner whose class does not
derive from `Relay` is accepted by `add` without error and stored in the
owner index, refuting the claimed Relay-derivedness requirement. -/
theorem C9_counterexample :
    exNonRelayOwner.relayDerived = false ∧
    (Bindings.add emptyRegistry exBNonRelay).2 = none ∧
    (Bindings.add emptyRegistry exBNonRelay).1.byRelay =
      [(exNonRelayOwner, [exBNonRelay])] := by
  exact ⟨by decide, by decide, by decide⟩

end RelayModel

namespace RelayModel

/-- **C1 (code bug).** `source_compatible` returns `True` only when both
sources are `None`: whenever either source is a `SourceInfo`, the function
reads `.emitter`, an attribute `SourceInfo` does not declare (its fields are
`relay` and `func`, and pydantic drops the `emitter=` construction keyword),
so the call raises `AttributeError` instead of comparing fields; `emit`
consequently raises on the first candidate listener once any source is
involved, rather than applying the claimed compatibility rule. -/
theorem C1_source_compatible_raises :
    source_compatible none none = .ok true ∧
    (∀ s : SourceInfo, source_compatible (some s) none = .error .attributeError) ∧
    (∀ s : SourceInfo, source_compatible none (some s) = .error .attributeError) ∧
    (∀ s s' : SourceInfo, source_compatible (some s) (some s') = .error .attributeError) ∧
    (Relay.emit exCall exStEmitNoSource
        { exEv with source := some { relay := some exR, func := none } }).2.2 =
      some PyErr.attributeError :=
  ⟨rfl, fun _ => rfl, fun _ => rfl, fun _ _ => rfl, rfl⟩

/-- **C2 (code bug).** An exception inside a listener's method is indeed
caught and logged by `safe_method` without aborting the other dispatches
(first conjunct: `exM1` raises, is logged, and `exM3` still completes, with
`emit` returning no error) — but the claim fails in general: when a sibling
listener carries a `source` restriction, `source_compatible` raises
`AttributeError` (it reads the undeclared `.emitter`), `emit` itself raises,
and the remaining listener `exM3` is never invoked (second conjunct). -/
theorem C2_emit_exception_isolation :
    (Relay.emit exCall exStEmitNoSource exEv).2 =
      ([(exM1, TaskResult.loggedException), (exM3, TaskResult.completed)], none) ∧
    (Relay.emit exCall exStEmit exEv).2 =
      ([(exM1, TaskResult.loggedException)], some PyErr.attributeError) :=
  ⟨rfl, rfl⟩

/-- **C3 (code bug).** `remove_relay` iterates over the live list
`cls._by_relay[relay]` while each `cls.remove` mutates it, so the iterator
skips every other element: from a registry where `exR` owns `[exB1, exB2]`,
`remove_relay exR` removes only `exB1` and leaves `exB2` in the owner index
(and visible to `get_by_relay`), contradicting the claim that no binding
owned by `R` remains.  `remove_relay` of `None` and of an unknown owner are
no-ops, as claimed. -/
theorem C3_remove_relay_partial :
    (Bindings.remove_relay exSt2 (some exR)).1.byRelay = [(exR, [exB2])] ∧
    (Bindings.remove_relay exSt2 (some exR)).2 = none ∧
    (Bindings.get_by_relay (Bindings.remove_relay exSt2 (some exR)).1 exR
      BFilter.bindingF).1 = [exB2] ∧
    Bindings.remove_relay exSt2 none = (exSt2, none) ∧
    Bindings.remove_relay exSt2 (some exNonRelayOwner) = (exSt2, none) := by
  exact ⟨by decide, by decide, by decide, by decide, by decide⟩

/-- **C10 (code bug).** The `NoEmit` path behaves as claimed: the wrapper
validates the wrapped data against the return annotation (raising
`TypeError` when it fails), emits nothing, and returns the bare data.  With
no listeners bound, a plain return value does produce one event per
`Emitter` binding of the bound method, carrying the returned data.  But the
wrapper builds each event's source as `SourceInfo(relay=self,
emitter=method)` — pydantic drops the undeclared `emitter` keyword, the
event carries a present source, and as soon as any listener is bound to the
emitted channel/event-type, `emit` raises `AttributeError` inside
`source_compatible`: the wrapper propagates the exception, later `Emitter`
bindings emit nothing, and the caller never receives the return value. -/
theorem C10_emits_wrapper :
    Relay.emitsWrapper exCallOk (fun _ => true) true exR 5 exStWrapNoListener
        (FuncResult.noEmit 3) = (exStWrapNoListener, ([], (none, some 3))) ∧
    Relay.emitsWrapper exCallOk (fun _ => false) true exR 5 exStWrapNoListener
        (FuncResult.noEmit 3) = (exStWrapNoListener, ([], (some PyErr.typeError, none))) ∧
    ((Relay.emitsWrapper exCallOk (fun _ => true) true exR 5 exStWrapNoListener
        (FuncResult.value 7)).2.1.map fun p => (p.1.channel, p.1.data)) =
      [("c1", 7), ("c2", 7)] ∧
    (Relay.emitsWrapper exCallOk (fun _ => true) true exR 5 exStWrapNoListener
        (FuncResult.value 7)).2.2 = (none, some 7) ∧
    (Relay.emitsWrapper exCallOk (fun _ => true) true exR 5 exStWrap
        (FuncResult.value 7)).2.2 = (some PyErr.attributeError, none) ∧
    ((Relay.emitsWrapper exCallOk (fun _ => true) true exR 5 exStWrap
        (FuncResult.value 7)).2.1.map fun p => (p.1.channel, p.1.data)) = [("c1", 7)] := by
  exact ⟨rfl, rfl, by decide, by decide, by decide, by decide⟩

end RelayModel
